import Mathlib

/-!
# Configuration file reader of libgit2 (`src/config.c`)

A shallow embedding of the line reader, the comment stripper and the
line parsers of `src/config.c`, followed by theorems about them.

Conventions of the embedding.

* A C string is the list of its characters before the terminating NUL.
* A pointer into a string is an index into that list; the index equal to
  the length of the list is the position of the terminating NUL.
* Bytes outside an object (before its first byte, after its terminating
  NUL) are not known to the program.  A read that yields such a byte is
  `none`, and a result is `some v` only when `v` does not depend on any
  such byte.
* `sizeof` applied to a `const char *` variable is the size of a pointer.
  That size is the parameter `ptrSize` of every function that uses it.
* An `int` has 32 bits.  The line number of the reader is an `int`, and
  the value stored by `line_number++` is reduced into the range of an
  `int` by `wrap_int`.
-/

namespace Config

/-! ## Characters -/

/-- The NUL character that terminates a C string. -/
def NUL : Char := Char.ofNat 0

/-- `isspace` in the C locale: space, `\t`, `\n`, `\v`, `\f`, `\r`. -/
def isspace (c : Char) : Bool :=
  c = ' ' || c = '\t' || c = '\n' || c = Char.ofNat 11 || c = Char.ofNat 12 || c = '\r'

/-- `isalnum` in the C locale. -/
def isalnum (c : Char) : Bool :=
  ('0'.toNat ≤ c.toNat && c.toNat ≤ '9'.toNat) ||
  ('a'.toNat ≤ c.toNat && c.toNat ≤ 'z'.toNat) ||
  ('A'.toNat ≤ c.toNat && c.toNat ≤ 'Z'.toNat)

/-- `tolower` in the C locale. -/
def tolower (c : Char) : Char :=
  if 'A'.toNat ≤ c.toNat ∧ c.toNat ≤ 'Z'.toNat then Char.ofNat (c.toNat + 32) else c

/-- `config_keychar`: `isalnum(c) || c == '-'`. -/
def config_keychar (c : Char) : Bool :=
  isalnum c || c = '-'

/-! ## Comment stripper -/

/-- The `for` loop of `strip_comments`.  `prev` is the character at
`ptr[-1]`, or `none` while `ptr == line`; `quote_count` is the running
count; the list is the text from `ptr` on.  The result is the text that
is kept from `ptr` on. -/
def strip_comments_loop : Option Char → Nat → List Char → List Char
  | _, _, [] => []
  | prev, quote_count, c :: rest =>
    let quote_count1 :=
      if c = '"' ∧ prev.isSome ∧ prev ≠ some '\\' then quote_count + 1 else quote_count
    if (c = ';' ∨ c = '#') ∧ quote_count1 % 2 = 0 then []
    else c :: strip_comments_loop (some c) quote_count1 rest

/-- `strip_comments`: the line after the in-place truncation.  The read of
`ptr[-1]` after the loop guards an empty block and is left out. -/
def strip_comments (line : List Char) : List Char :=
  strip_comments_loop none 0 line

/-! ## Reading the comment rule as a statement about prefixes -/

/-- Length of the run of backslashes that ends the text `pre`. -/
def backslash_run (pre : List Char) : Nat :=
  (pre.reverse.takeWhile (fun c => c = '\\')).length

/-- The escape rule in the words of the specification: a quote is escaped
when the run of backslashes in front of it has odd length. -/
def escaped_by_odd_run (pre : List Char) : Bool :=
  backslash_run pre % 2 = 1

/-- The escape rule of one character of look-behind: a quote is escaped
when the character in front of it is a backslash. -/
def escaped_by_last (pre : List Char) : Bool :=
  pre.getLast? = some '\\'

/-- The rule that `strip_comments` applies: a quote is left out of the
count when it is the first character of the line or when the character
in front of it is a backslash. -/
def skipped_by_code (pre : List Char) : Bool :=
  pre.getLast? = none || pre.getLast? = some '\\'

/-- Number of double quotes in `pre` that count under the rule `skip`,
where `skip` is given the text in front of the quote. -/
def count_quotes (skip : List Char → Bool) (pre : List Char) : Nat :=
  ((List.range pre.length).filter
    (fun i => decide (pre[i]? = some '"') && !skip (pre.take i))).length

/-- The shortest prefix `pre ++ p` of `pre ++ rest` that is followed by a
`;` or a `#` and holds an even number of counted quotes, if there is one. -/
def first_cut (skip : List Char → Bool) (pre : List Char) : List Char → Option (List Char)
  | [] => none
  | c :: rest =>
    if (c = ';' ∨ c = '#') ∧ count_quotes skip pre % 2 = 0 then some pre
    else first_cut skip (pre ++ [c]) rest

/-- The line cut at the first `;` or `#` that has an even number of counted
quotes in front of it, and the whole line when there is no such
character. -/
def truncate_at_comment (skip : List Char → Bool) (line : List Char) : List Char :=
  (first_cut skip [] line).getD line

/-! ## Memory reads -/

/-- The byte of the NUL-terminated string `s` at the signed offset `i`:
a character of the string, the terminating NUL at offset `s.length`, and
`none` for an offset in front of the string or behind its terminator. -/
def byte_at (s : List Char) (i : Int) : Option Char :=
  if i < 0 then none
  else if i.toNat < s.length then s[i.toNat]?
  else if i.toNat = s.length then some NUL
  else none

/-- The test `memcmp(a + p, b, n) == 0`, where `a` and `b` are
NUL-terminated strings and `b` is read from its first byte.  It is
`some false` when two known bytes differ, `some true` when all `n` pairs
are known and equal, and `none` when the answer rests on a byte outside
one of the two strings. -/
def memcmp_eq (a : List Char) (p : Int) (b : List Char) (n : Nat) : Option Bool :=
  let pairs := (List.range n).map
    (fun (k : Nat) => (byte_at a (p + (k : Int)), byte_at b (k : Int)))
  if pairs.any (fun xy =>
      match xy with
      | (some x, some y) => x != y
      | _ => false) then some false
  else if pairs.all (fun xy => xy.1.isSome && xy.2.isSome) then some true
  else none

/-- `strchr` on the text that starts at index `i`, which is given as a
list: the index of the first `c`, the index of the terminator when `c` is
NUL, and `none` (the null pointer) when `c` does not occur. -/
def strchr_from : List Char → Char → Nat → Option Nat
  | [], c, i => if c = NUL then some i else none
  | x :: xs, c, i => if x = c then some i else strchr_from xs c (i + 1)

/-- `strchr(s + start, c)` for a pointer inside the string or at its
terminator. -/
def strchr (s : List Char) (start : Nat) (c : Char) : Option Nat :=
  if s.length < start then none else strchr_from (s.drop start) c start

/-! ## Machine integers -/

/-- The value that an `int` holds after an arithmetic result `x`.  An `int`
has 32 bits in two's complement; a result outside the range from
-2147483648 to 2147483647 is reduced modulo 4294967296 into that range,
so that `INT_MAX + 1` is `INT_MIN`. -/
def wrap_int (x : Int) : Int :=
  (x + 2147483648) % 4294967296 - 2147483648

/-! ## The reader -/

/-- The `reader` member of `struct git_config`: the file buffer (the text
before its terminating NUL), the read pointer as an index into it, the
line number and the end-of-input flag.  The line number is an `int`: the
statement `line_number++` stores `wrap_int (line_number + 1)`. -/
structure Reader where
  buffer : List Char
  read_ptr : Nat
  line_number : Int
  eof : Bool
deriving DecidableEq, Repr

/-- The string literal `"\\\n"` that `LINEBREAK_UNIX` points to. -/
def LINEBREAK_UNIX : List Char := ['\\', '\n']

/-- The string literal `"\\\r\n"` that `LINEBREAK_WIN32` points to. -/
def LINEBREAK_WIN32 : List Char := ['\\', '\r', '\n']

/-- `is_linebreak(pos)`.  Both comparisons have length
`sizeof(const char *)`.  A null `pos` makes `memcmp` read through
`NULL - 1`, which has no defined outcome. -/
def is_linebreak (ptrSize : Nat) (buf : List Char) (pos : Option Nat) : Option Bool :=
  match pos with
  | none => none
  | some p =>
    match memcmp_eq buf ((p : Int) - 1) LINEBREAK_UNIX ptrSize with
    | none => none
    | some true => some true
    | some false => memcmp_eq buf ((p : Int) - 2) LINEBREAK_WIN32 ptrSize

/-- The loop `while (is_linebreak(line_end)) line_end = strchr(line_end + 1, '\n')`
of `cfg_readline`, run for at most `fuel` tests.  The outer `none` is an
undetermined outcome; the inner option is the pointer `line_end`. -/
def readline_find_end (ptrSize : Nat) (buf : List Char) :
    Nat → Option Nat → Option (Option Nat)
  | 0, _ => none
  | fuel + 1, line_end =>
    match is_linebreak ptrSize buf line_end with
    | none => none
    | some false => some line_end
    | some true =>
      match line_end with
      | none => none
      | some p => readline_find_end ptrSize buf fuel (strchr buf (p + 1) '\n')

/-- The loop `while (line_src < line_end && isspace(*line_src)) line_src++`;
`n` bounds the number of steps and is `line_end - line_src` at the call. -/
def readline_skip_space (buf : List Char) : Nat → Nat → Nat
  | 0, line_src => line_src
  | n + 1, line_src =>
    if isspace (buf.getD line_src NUL) then readline_skip_space buf n (line_src + 1)
    else line_src

/-- The copy loop of `cfg_readline`: the characters written to `line`.
Both `memcmp` calls and both skips use `sizeof(const char *)`. -/
def readline_copy (ptrSize : Nat) (buf : List Char) (line_end : Nat) :
    Nat → Nat → Option (List Char)
  | 0, line_src => if line_src < line_end then none else some []
  | fuel + 1, line_src =>
    if line_src < line_end then
      match memcmp_eq buf (line_src : Int) LINEBREAK_UNIX ptrSize with
      | none => none
      | some true => readline_copy ptrSize buf line_end fuel (line_src + ptrSize)
      | some false =>
        match memcmp_eq buf (line_src : Int) LINEBREAK_WIN32 ptrSize with
        | none => none
        | some true => readline_copy ptrSize buf line_end fuel (line_src + ptrSize)
        | some false =>
          (readline_copy ptrSize buf line_end fuel (line_src + 1)).map
            (fun l => buf.getD line_src NUL :: l)
    else some []

/-- The loop `while (--line_len >= 0 && isspace(line[line_len])) line[line_len] = '\0'`:
the line without its trailing white space. -/
def readline_trim_end (line : List Char) : List Char :=
  (line.reverse.dropWhile isspace).reverse

/-- `cfg_readline`: the logical line and the reader after the call, or
`none` when the outcome is not determined by the buffer (a read through a
null pointer, or a comparison that rests on bytes outside the buffer or
outside a string literal).  Allocation is taken to succeed. -/
def cfg_readline (ptrSize : Nat) (cfg : Reader) : Option (List Char × Reader) :=
  let buf := cfg.buffer
  let line_src := cfg.read_ptr
  match readline_find_end ptrSize buf (buf.length + 1) (strchr buf line_src '\n') with
  | none => none
  | some found =>
    let line_end_opt := match found with
      | none => strchr buf line_src NUL
      | some p => some p
    match line_end_opt with
    | none => none
    | some line_end =>
      let line_src1 := readline_skip_space buf (line_end - line_src) line_src
      match readline_copy ptrSize buf line_end (line_end - line_src1) line_src1 with
      | none => none
      | some copied =>
        let line := readline_trim_end copied
        let line_end1 := if buf.getD line_end NUL = '\n' then line_end + 1 else line_end
        let eof1 := if buf.getD line_end1 NUL = NUL then true else cfg.eof
        some (line, { cfg with read_ptr := line_end1,
                               line_number := wrap_int (cfg.line_number + 1),
                               eof := eof1 })

/-! ## Status codes -/

/-- Modelled from the spec: the success status `GIT_SUCCESS`, declared in a
header that is not among the sources.  It is zero: the tests compare a
successful call with `0` and an error with `< GIT_SUCCESS`. -/
def GIT_SUCCESS : Int := 0

/-- Modelled from the spec: the allocation error `GIT_ENOMEM`, declared in a
header that is not among the sources; a negative status. -/
def GIT_ENOMEM : Int := -4

/-- Modelled from the spec: the corruption error `GIT_EOBJCORRUPTED`,
declared in a header that is not among the sources; a negative status. -/
def GIT_EOBJCORRUPTED : Int := -7

/-! ## Character input -/

/-- `cfg_getchar_raw`: the character returned and the reader after the
call; `none` when the byte under the read pointer lies outside the
buffer. -/
def cfg_getchar_raw (cfg : Reader) : Option (Char × Reader) :=
  match byte_at cfg.buffer (cfg.read_ptr : Int) with
  | none => none
  | some c0 =>
    let cfg1 : Reader := { cfg with read_ptr := cfg.read_ptr + 1 }
    let step : Option (Char × Reader) :=
      if c0 = '\r' then
        match byte_at cfg1.buffer (cfg1.read_ptr : Int) with
        | none => none
        | some c1 =>
          if c1 = '\n' then some ('\n', { cfg1 with read_ptr := cfg1.read_ptr + 1 })
          else some (c0, cfg1)
      else some (c0, cfg1)
    match step with
    | none => none
    | some (c, cfg2) =>
      let cfg3 : Reader :=
        if c = '\n' then { cfg2 with line_number := wrap_int (cfg2.line_number + 1) } else cfg2
      if c = NUL then some ('\n', { cfg3 with eof := true }) else some (c, cfg3)

/-- The flag `SKIP_WHITESPACE`, `1 << 1`. -/
def SKIP_WHITESPACE : Nat := 2

/-- The flag `SKIP_COMMENTS`, `1 << 2`. -/
def SKIP_COMMENTS : Nat := 4

/-- The loop `do c = cfg_getchar_raw(cfg_file); while (skip_whitespace && isspace(c))`.
The fuel counts the bytes that can still be read, so that running out of
it is a read outside the buffer. -/
def cfg_getchar_skip_space (skip_whitespace : Bool) : Nat → Reader → Option (Char × Reader)
  | 0, _ => none
  | fuel + 1, cfg =>
    match cfg_getchar_raw cfg with
    | none => none
    | some (c, cfg1) =>
      if skip_whitespace && isspace c then cfg_getchar_skip_space skip_whitespace fuel cfg1
      else some (c, cfg1)

/-- The loop `do c = cfg_getchar_raw(cfg_file); while (c != '\n')`, with
fuel as in `cfg_getchar_skip_space`. -/
def cfg_getchar_skip_comment : Nat → Reader → Option (Char × Reader)
  | 0, _ => none
  | fuel + 1, cfg =>
    match cfg_getchar_raw cfg with
    | none => none
    | some (c, cfg1) =>
      if c ≠ '\n' then cfg_getchar_skip_comment fuel cfg1 else some (c, cfg1)

/-- `cfg_getchar(cfg_file, flags)`. -/
def cfg_getchar (cfg_file : Reader) (flags : Nat) : Option (Char × Reader) :=
  let skip_whitespace : Bool := (flags &&& SKIP_WHITESPACE) ≠ 0
  let skip_comments : Bool := (flags &&& SKIP_COMMENTS) ≠ 0
  let fuel := cfg_file.buffer.length + 2 - cfg_file.read_ptr
  match cfg_getchar_skip_space skip_whitespace fuel cfg_file with
  | none => none
  | some (c, cfg1) =>
    if skip_comments && (c = '#' || c = ';') then
      cfg_getchar_skip_comment (cfg1.buffer.length + 2 - cfg1.read_ptr) cfg1
    else some (c, cfg1)

/-! ## Byte-order mark -/

/-- The string literal that `utf8_bom` points to: the bytes EF BB BF. -/
def utf8_bom : List Char := [Char.ofNat 0xEF, Char.ofNat 0xBB, Char.ofNat 0xBF]

/-- `skip_bom`: the status and the reader after the call.  The comparison
and the advance both have length `sizeof(utf8_bom)`, and `utf8_bom` is a
pointer. -/
def skip_bom (ptrSize : Nat) (cfg : Reader) : Option (Int × Reader) :=
  match memcmp_eq cfg.buffer (cfg.read_ptr : Int) utf8_bom ptrSize with
  | none => none
  | some true => some (GIT_SUCCESS, { cfg with read_ptr := cfg.read_ptr + ptrSize })
  | some false => some (GIT_SUCCESS, cfg)

/-! ## Variable lines -/

/-- The backward scan of `parse_variable` over the end of the name,
`if (isspace(var_end[-1])) { do var_end--; while (isspace(var_end[0])); }`:
the final `var_end`, or `none` when the scan reads in front of the line.
The function makes no further use of `var_end`. -/
def parse_variable_name_end (line : List Char) (var_end : Nat) : Option Nat :=
  match var_end with
  | 0 => none
  | k + 1 =>
    if isspace (line.getD k NUL) then
      match ((line.take (k + 1)).reverse.dropWhile isspace).length with
      | 0 => none
      | m + 1 => some m
    else some (k + 1)

/-- `parse_variable`: the status returned.  The parameters `cfg` and
`section_name` are not used by the function.  The status does not depend
on the scan `parse_variable_name_end`. -/
def parse_variable (_cfg : Reader) (_section_name : Option (List Char))
    (line : List Char) : Int :=
  match strchr line 0 '=' with
  | none => GIT_SUCCESS
  | some var_end =>
    let value_start := (line.drop (var_end + 1)).dropWhile isspace
    if value_start.headD NUL = NUL then GIT_EOBJCORRUPTED else GIT_SUCCESS

/-! ## Section headers -/

/-- What `parse_section_header` and `config_parse` take from outside the
text of the function bodies.

* `ptrSize` is `sizeof(const char *)`.
* `name_start` is the text that the local pointer `name_start` points to;
  the function reads the pointer without ever assigning it.
* `name_value` is the value of the pointer `name` after its conversion to
  the `int` that the function returns.
* `parse_section_name_ext` is the function of that name, which the sources
  call and do not define. -/
structure Env where
  ptrSize : Nat
  name_start : List Char
  name_value : Int
  parse_section_name_ext : List Char → Reader → Option (Int × Reader)

/-- The value of the `return` statement that ends `parse_section_header`:
`NULL`, the pointer `name` together with the text stored in it, or the
result of `parse_section_name_ext`. -/
inductive HeaderReturn where
  | null : HeaderReturn
  | name (text : List Char) : HeaderReturn
  | ext (value : Int) : HeaderReturn
deriving DecidableEq, Repr

/-- The `int` that the caller of `parse_section_header` receives. -/
def HeaderReturn.status (env : Env) : HeaderReturn → Int
  | HeaderReturn.null => 0
  | HeaderReturn.name _ => env.name_value
  | HeaderReturn.ext value => value

/-- The `do ... while` loop of `parse_section_header`.  `capacity` is the
size of the block allocated for `name`, `name` the characters stored so
far, `c` the character under test.  The characters come from the reader
`cfg`, by `cfg_getchar`.  A store behind the allocated block has no
defined outcome. -/
def parse_section_header_loop (env : Env) (capacity : Nat) :
    Nat → List Char → Char → Reader → Option (HeaderReturn × Reader)
  | 0, _, _, _ => none
  | fuel + 1, name, c, cfg =>
    if cfg.eof then some (HeaderReturn.null, cfg)
    else if isspace c then
      (env.parse_section_name_ext name cfg).map (fun r => (HeaderReturn.ext r.1, r.2))
    else if !config_keychar c && c ≠ '.' then some (HeaderReturn.null, cfg)
    else if capacity ≤ name.length then none
    else
      let name1 := name ++ [tolower c]
      match cfg_getchar cfg SKIP_COMMENTS with
      | none => none
      | some (c1, cfg1) =>
        if c1 ≠ ']' then parse_section_header_loop env capacity fuel name1 c1 cfg1
        else if capacity ≤ name1.length then none
        else some (HeaderReturn.name name1, cfg1)

/-- `parse_section_header(section_out, line)`: the value returned and the
reader after the call.  The function neither reads `line` nor writes
`section_out`; it searches `]` from the unassigned pointer `name_start`
and takes its characters from the reader `cfg`.  Allocation is taken to
succeed. -/
def parse_section_header (env : Env) (cfg : Reader) (_line : List Char) :
    Option (HeaderReturn × Reader) :=
  match strchr env.name_start 0 ']' with
  | none => some (HeaderReturn.null, cfg)
  | some name_end =>
    match cfg_getchar cfg (SKIP_WHITESPACE ||| SKIP_COMMENTS) with
    | none => none
    | some (c, cfg1) =>
      parse_section_header_loop env (name_end + 1) (cfg.buffer.length + 2) [] c cfg1

/-! ## The parser -/

/-- The `while` loop of `config_parse`, run for at most `fuel` lines: the
final `error` and reader.  The reader that `parse_section_header` names
`cfg` is the reader of `cfg_file`. -/
def config_parse_loop (env : Env) : Nat → Int → Reader → Option (Int × Reader)
  | 0, _, _ => none
  | fuel + 1, error, cfg_file =>
    if error = GIT_SUCCESS ∧ cfg_file.eof = false then
      match cfg_readline env.ptrSize cfg_file with
      | none => none
      | some (line0, cfg1) =>
        let line := strip_comments line0
        match line with
        | [] => config_parse_loop env fuel error cfg1
        | c :: _ =>
          if c = '[' then
            match parse_section_header env cfg1 line with
            | none => none
            | some (r, cfg2) => config_parse_loop env fuel (r.status env) cfg2
          else config_parse_loop env fuel (parse_variable cfg1 none line) cfg1
    else some (error, cfg_file)

/-- `config_parse`: the status returned and the reader after the call. -/
def config_parse (env : Env) (cfg_file : Reader) : Option (Int × Reader) :=
  match skip_bom env.ptrSize cfg_file with
  | none => none
  | some (_, cfg1) => config_parse_loop env (cfg1.buffer.length + 2) GIT_SUCCESS cfg1

/-- A reader that stands at the start of the text `text`. -/
def Reader.start (text : List Char) : Reader :=
  { buffer := text, read_ptr := 0, line_number := 0, eof := false }

/-! ## Reading all lines -/

/-- The loop `while (!cfg_file->reader.eof) line = cfg_readline(cfg_file)`
of `config_parse` without the parsing of the lines: the lines returned by
repeated calls of `cfg_readline`, for at most `fuel` calls. -/
def read_lines (ptrSize : Nat) : Nat → Reader → Option (List (List Char))
  | 0, _ => none
  | fuel + 1, cfg =>
    if cfg.eof then some []
    else
      match cfg_readline ptrSize cfg with
      | none => none
      | some (line, cfg1) => (read_lines ptrSize fuel cfg1).map (fun ls => line :: ls)

/-- All logical lines of the buffer `buf`, read from its start. -/
def read_all_lines (ptrSize : Nat) (buf : List Char) : Option (List (List Char)) :=
  read_lines ptrSize (buf.length + 1) (Reader.start buf)

/-- The text `buf` with every LF replaced by CR LF. -/
def to_crlf : List Char → List Char
  | [] => []
  | c :: rest => if c = '\n' then '\r' :: '\n' :: to_crlf rest else c :: to_crlf rest

/-! ## When the line-break test has an answer -/

/-- The byte `o` is known and is not `c`. -/
def differs (o : Option Char) (c : Char) : Bool :=
  match o with
  | some x => x != c
  | none => false

/-- The condition under which `is_linebreak` answers "no" at an LF that
has the text `pre` in front of it and the text `after` behind it, for
pointers of at least 4 bytes: each of the two comparisons meets a known
byte that differs from its literal. -/
def linebreak_decided (pre after : List Char) : Bool :=
  (differs pre.getLast? '\\' || !after.isEmpty) &&
  (differs pre.dropLast.getLast? '\\' || differs pre.getLast? '\r' || !after.isEmpty)

/-! ## Readers of a buffer and of its CR LF form -/

/-- The reader `cfgC` stands in the CR LF form of the buffer of `cfgL` at
the place that corresponds to the place of `cfgL`: both inside their
buffers, or both one behind the terminating NUL with the end-of-input
flag set.  The buffer of `cfgL` holds neither CR nor NUL. -/
inductive crlf_related : Reader → Reader → Prop where
  | inside (before rest : List Char) (ln : Int) (e : Bool)
      (hcr : '\r' ∉ before ++ rest) (hnul : NUL ∉ before ++ rest) :
      crlf_related ⟨before ++ rest, before.length, ln, e⟩
        ⟨to_crlf (before ++ rest), (to_crlf before).length, ln, e⟩
  | past (buf : List Char) (ln : Int) (hcr : '\r' ∉ buf) (hnul : NUL ∉ buf) :
      crlf_related ⟨buf, buf.length + 1, ln, true⟩
        ⟨to_crlf buf, (to_crlf buf).length + 1, ln, true⟩

/-- Two results agree: both are undefined, or both are defined with the
same value and related readers. -/
def crlf_related_result {α : Type} : Option (α × Reader) → Option (α × Reader) → Prop
  | none, none => True
  | some (a, cfgL), some (b, cfgC) => a = b ∧ crlf_related cfgL cfgC
  | _, _ => False

/-! ## The character in front of a position -/

/-- The character in front of the position behind the text `a`, when the
character in front of `a` is `prev`: the last character of `a`, or `prev`
when `a` is empty. -/
def last_or (prev : Option Char) (a : List Char) : Option Char :=
  match a.getLast? with
  | some x => some x
  | none => prev

/-! ## The lines that the parser reads -/

/-- One pass of the `while` loop of `config_parse`: the line after
`strip_comments`, the reader after `cfg_readline`, the value of `error` at
the end of the pass and the reader at the end of the pass. -/
structure LineEvent where
  line : List Char
  after_readline : Reader
  status : Int
  after_parse : Reader
deriving DecidableEq, Repr

/-- The `while` loop of `config_parse` as in `config_parse_loop`, with the
list of its passes in front of the final `error` and reader: one entry for
each call of `cfg_readline`, in the order of the calls. -/
def config_parse_events (env : Env) :
    Nat → Int → Reader → Option (List LineEvent × Int × Reader)
  | 0, _, _ => none
  | fuel + 1, error, cfg_file =>
    if error = GIT_SUCCESS ∧ cfg_file.eof = false then
      match cfg_readline env.ptrSize cfg_file with
      | none => none
      | some (line0, cfg1) =>
        let line := strip_comments line0
        match line with
        | [] =>
          (config_parse_events env fuel error cfg1).map
            (fun t => (⟨[], cfg1, error, cfg1⟩ :: t.1, t.2))
        | c :: rest =>
          if c = '[' then
            match parse_section_header env cfg1 (c :: rest) with
            | none => none
            | some (r, cfg2) =>
              (config_parse_events env fuel (r.status env) cfg2).map
                (fun t => (⟨c :: rest, cfg1, r.status env, cfg2⟩ :: t.1, t.2))
          else
            (config_parse_events env fuel (parse_variable cfg1 none (c :: rest)) cfg1).map
              (fun t => (⟨c :: rest, cfg1, parse_variable cfg1 none (c :: rest), cfg1⟩ :: t.1,
                t.2))
    else some ([], error, cfg_file)

/-- `config_parse` with the list of the passes of its loop in front of the
status returned and the reader after the call. -/
def config_parse_trace (env : Env) (cfg_file : Reader) :
    Option (List LineEvent × Int × Reader) :=
  match skip_bom env.ptrSize cfg_file with
  | none => none
  | some (_, cfg1) => config_parse_events env (cfg1.buffer.length + 2) GIT_SUCCESS cfg1

/-! ## Bytes read in front of an object -/

/-- The bytes that `is_linebreak(pos)` is certain to read: `pos[-1]`, the
first byte of the first `memcmp`, and `pos[-2]`, the first byte of the
second `memcmp`, when the first comparison finds a difference.  A byte
outside the buffer is `none`. -/
def is_linebreak_reads (ptrSize : Nat) (buf : List Char) (pos : Nat) : List (Option Char) :=
  byte_at buf ((pos : Int) - 1) ::
    (match memcmp_eq buf ((pos : Int) - 1) LINEBREAK_UNIX ptrSize with
     | some false => [byte_at buf ((pos : Int) - 2)]
     | _ => [])

/-- The byte `ptr[-1]` that `strip_comments` reads in `if (isspace(ptr[-1]))`
after its loop, where `ptr` stands at the cut or at the terminating NUL;
`none` when the byte lies in front of the line. -/
def strip_comments_last_read (line : List Char) : Option Char :=
  byte_at line (((strip_comments line).length : Int) - 1)

/-- The pointer `var_end` of `parse_variable` in front of the backward
scan: the first `=`, or the terminating NUL when the line holds no `=`. -/
def parse_variable_var_end (line : List Char) : Nat :=
  match strchr line 0 '=' with
  | none => line.length
  | some var_end => var_end

/-- The byte `var_end[-1]` that `parse_variable` reads in
`if (isspace(var_end[-1]))`; `none` when the byte lies in front of the
line. -/
def parse_variable_first_read (line : List Char) : Option Char :=
  byte_at line ((parse_variable_var_end line : Int) - 1)

end Config

/-! # Theorems -/

namespace Config

/-! ## Machine integers -/

theorem wrap_int_of_range (x : Int) (hlo : -2147483648 ≤ x) (hhi : x ≤ 2147483647) :
    wrap_int x = x := by
  unfold wrap_int
  omega

@[simp] theorem wrap_int_one : wrap_int 1 = 1 := by decide

@[simp] theorem wrap_int_zero_add_one : wrap_int (0 + 1) = 1 := by decide

@[simp] theorem wrap_int_two : wrap_int (1 + 1) = 2 := by decide

theorem wrap_int_max : wrap_int (2147483647 + 1) = -2147483648 := by decide

theorem count_quotes_snoc (skip : List Char → Bool) (pre : List Char) (c : Char) :
    count_quotes skip (pre ++ [c]) =
      count_quotes skip pre + (if c = '"' ∧ skip pre = false then 1 else 0) := by
  unfold count_quotes
  rw [List.length_append, List.length_singleton, List.range_succ, List.filter_append,
    List.length_append]
  congr 1
  · congr 1
    apply List.filter_congr
    intro i hi
    have hlt : i < pre.length := List.mem_range.mp hi
    rw [List.getElem?_append_left hlt, List.take_append_of_le_length (Nat.le_of_lt hlt)]
  · by_cases hc : c = '"' <;> by_cases hs : skip pre = false <;> simp [hc, hs]

theorem skipped_by_code_false (pre : List Char) :
    skipped_by_code pre = false ↔ (pre.getLast?.isSome ∧ pre.getLast? ≠ some '\\') := by
  unfold skipped_by_code
  cases h : pre.getLast? <;> simp

theorem strip_comments_loop_eq (rest : List Char) :
    ∀ pre : List Char,
      pre ++ strip_comments_loop pre.getLast? (count_quotes skipped_by_code pre) rest =
        (first_cut skipped_by_code pre rest).getD (pre ++ rest) := by
  induction rest with
  | nil => intro pre; simp [strip_comments_loop, first_cut]
  | cons c rest ih =>
    intro pre
    have hsnoc := count_quotes_snoc skipped_by_code pre c
    have hih := ih (pre ++ [c])
    rw [List.getLast?_append, List.getLast?_singleton] at hih
    simp only [Option.or] at hih
    rw [hsnoc] at hih
    simp only [skipped_by_code_false] at hih
    by_cases hq : c = '"'
    · subst hq
      have h1 : ¬ ('"' = ';' ∨ '"' = '#') := by decide
      simp only [strip_comments_loop, first_cut, h1, false_and, if_false, true_and] at hih ⊢
      by_cases ha : pre.getLast?.isSome = true <;> by_cases hb : pre.getLast? = some '\\' <;>
        simp only [ha, hb, ne_eq, not_true_eq_false, not_false_eq_true, and_self, and_false,
          false_and, if_true, if_false, Nat.add_zero] at hih ⊢ <;>
        simpa using hih
    · by_cases hc : (c = ';' ∨ c = '#') ∧ count_quotes skipped_by_code pre % 2 = 0
      · simp [strip_comments_loop, first_cut, hq, hc]
      · simp only [hq, false_and, if_false, Nat.add_zero] at hih
        simp only [strip_comments_loop, first_cut, hq, false_and, if_false, hc]
        simpa using hih

/-- The comment stripper cuts the line at the first `;` or `#` that has an
even number of counted quotes in front of it, where a quote counts unless
it is the first character of the line or follows a backslash. -/
theorem strip_comments_eq_truncate (line : List Char) :
    strip_comments line = truncate_at_comment skipped_by_code line := by
  have h := strip_comments_loop_eq line []
  simpa [strip_comments, truncate_at_comment, count_quotes] using h

theorem count_quotes_last_eq_code (pre : List Char) (h : pre.head? ≠ some '"') :
    count_quotes escaped_by_last pre = count_quotes skipped_by_code pre := by
  unfold count_quotes
  congr 1
  apply List.filter_congr
  intro i hi
  have hlt : i < pre.length := List.mem_range.mp hi
  cases i with
  | zero =>
    have h0 : pre[0]? ≠ some '"' := by
      cases pre with
      | nil => simp
      | cons p ps => simpa using h
    simp [h0]
  | succ n =>
    have hne : pre.take (n + 1) ≠ [] := by
      cases pre with
      | nil => simp at hlt
      | cons p ps => simp
    have hl : (pre.take (n + 1)).getLast? ≠ none := by
      simpa [List.getLast?_eq_none_iff] using hne
    simp [escaped_by_last, skipped_by_code, hl]

theorem first_cut_last_eq_code (rest : List Char) :
    ∀ pre : List Char, (pre ++ rest).head? ≠ some '"' →
      first_cut escaped_by_last pre rest = first_cut skipped_by_code pre rest := by
  induction rest with
  | nil => intro pre _; rfl
  | cons c rest ih =>
    intro pre h
    have hpre : pre.head? ≠ some '"' := by
      cases pre with
      | nil => simp
      | cons p ps => simpa using h
    have hrec := ih (pre ++ [c]) (by simpa using h)
    simp only [first_cut, count_quotes_last_eq_code pre hpre, hrec]

/-- C1 (as amended): for every line that does not begin with a double
quote, `strip_comments` cuts the line exactly at the first `;` or `#` that
is preceded by an even number of double quotes that do not directly follow
a backslash, and leaves the line unchanged when there is no such
character. -/
theorem strip_comments_cuts_at_first_unquoted_comment (line : List Char)
    (h : line.head? ≠ some '"') :
    strip_comments line = truncate_at_comment escaped_by_last line := by
  rw [strip_comments_eq_truncate]
  unfold truncate_at_comment
  rw [first_cut_last_eq_code line [] (by simpa using h)]

/-- Witness for C1: the line `a = "x;y\"z" # c` is cut in front of the `#`. -/
theorem strip_comments_cuts_at_first_unquoted_comment_witness :
    ("a = \"x;y\\\"z\" # c".toList).head? ≠ some '"' ∧
    strip_comments "a = \"x;y\\\"z\" # c".toList = "a = \"x;y\\\"z\" ".toList ∧
    strip_comments "a = \"x;y\\\"z\" # c".toList =
      truncate_at_comment escaped_by_last "a = \"x;y\\\"z\" # c".toList :=
  ⟨by decide, by decide,
    strip_comments_cuts_at_first_unquoted_comment "a = \"x;y\\\"z\" # c".toList (by decide)⟩

/-- C1 (as stated) fails: with the escape rule of the specification (a
quote is escaped when an odd run of backslashes precedes it, so a quote in
first position and a quote after two backslashes both count), the line
`";"` and the line `x\\"a;b"` would be left whole, while `strip_comments`
cuts both at the `;`. -/
theorem strip_comments_differs_from_odd_run_rule :
    truncate_at_comment escaped_by_odd_run "\";\"".toList = "\";\"".toList ∧
    strip_comments "\";\"".toList = "\"".toList ∧
    truncate_at_comment escaped_by_odd_run "x\\\\\"a;b\"".toList = "x\\\\\"a;b\"".toList ∧
    strip_comments "x\\\\\"a;b\"".toList = "x\\\\\"a".toList := by
  decide

/-! ## Searching a string -/

theorem strchr_from_append_cons (a b : List Char) (c : Char) (h : c ∉ a) :
    ∀ i : Nat, strchr_from (a ++ c :: b) c i = some (i + a.length) := by
  induction a with
  | nil => intro i; simp [strchr_from]
  | cons x xs ih =>
    intro i
    have hx : x ≠ c := fun e => h (by simp [e])
    have hxs : c ∉ xs := fun e => h (by simp [e])
    have hrec := ih hxs (i + 1)
    simp only [List.cons_append, strchr_from, hx, if_false, List.length_cons]
    refine hrec.trans ?_
    rw [Option.some.injEq]
    omega

theorem strchr_from_eq_none (a : List Char) (c : Char) (h : c ∉ a) (hc : c ≠ NUL) :
    ∀ i : Nat, strchr_from a c i = none := by
  induction a with
  | nil => intro i; simp [strchr_from, hc]
  | cons x xs ih =>
    intro i
    have hx : x ≠ c := fun e => h (by simp [e])
    have hxs : c ∉ xs := fun e => h (by simp [e])
    simp only [strchr_from, hx, if_false, ih hxs (i + 1)]

theorem strchr_zero_append_cons (a b : List Char) (c : Char) (h : c ∉ a) :
    strchr (a ++ c :: b) 0 c = some a.length := by
  simp [strchr, strchr_from_append_cons a b c h 0]

/-! ## Variable lines -/

theorem dropWhile_isspace_eq_nil (value : List Char) (h : ∀ c ∈ value, isspace c = true) :
    value.dropWhile isspace = [] := by
  induction value with
  | nil => rfl
  | cons x xs ih =>
    have hx : isspace x = true := h x (by simp)
    simp only [List.dropWhile, hx]
    exact ih (fun c hc => h c (by simp [hc]))

theorem dropWhile_isspace_head (value : List Char) (h : ∃ c ∈ value, isspace c = false)
    (hnul : NUL ∉ value) : (value.dropWhile isspace).headD NUL ≠ NUL := by
  induction value with
  | nil => simp at h
  | cons x xs ih =>
    by_cases hx : isspace x = true
    · simp only [List.dropWhile, hx]
      apply ih
      · obtain ⟨c, hc, hs⟩ := h
        rcases List.mem_cons.mp hc with e | e
        · subst e; rw [hx] at hs; exact absurd hs (by decide)
        · exact ⟨c, e, hs⟩
      · exact fun e => hnul (by simp [e])
    · have hx2 : isspace x = false := by simpa using hx
      simp only [List.dropWhile, hx2, List.headD_cons]
      exact fun e => hnul (by simp [e])

/-- C3: for a line `name = value` whose first `=` follows `name`,
`parse_variable` returns `GIT_EOBJCORRUPTED` when `value` is empty or all
white space, and returns `GIT_SUCCESS`, which is a different status, when
`value` holds a character that is not white space. -/
theorem parse_variable_empty_value (cfg : Reader) (section_name : Option (List Char))
    (name value : List Char) (hname : '=' ∉ name) (hnul : NUL ∉ value) :
    ((∀ c ∈ value, isspace c = true) →
      parse_variable cfg section_name (name ++ '=' :: value) = GIT_EOBJCORRUPTED) ∧
    ((∃ c ∈ value, isspace c = false) →
      parse_variable cfg section_name (name ++ '=' :: value) = GIT_SUCCESS ∧
      parse_variable cfg section_name (name ++ '=' :: value) ≠ GIT_EOBJCORRUPTED) := by
  have hdrop : (name ++ '=' :: value).drop (name.length + 1) = value := by
    rw [show name ++ '=' :: value = (name ++ ['=']) ++ value by simp]
    exact List.drop_left' (by simp)
  constructor
  · intro hall
    simp [parse_variable, strchr_zero_append_cons name value '=' hname, hdrop,
      dropWhile_isspace_eq_nil value hall]
  · intro hex
    have hhead := dropWhile_isspace_head value hex hnul
    have hval : parse_variable cfg section_name (name ++ '=' :: value) = GIT_SUCCESS := by
      simp only [parse_variable, strchr_zero_append_cons name value '=' hname, hdrop]
      rw [if_neg hhead]
    rw [hval]
    exact ⟨rfl, by decide⟩

/-- Witness for C3: `key =` is rejected and `key = v` is accepted. -/
theorem parse_variable_empty_value_witness :
    parse_variable (Reader.start []) none "key =".toList = GIT_EOBJCORRUPTED ∧
    parse_variable (Reader.start []) none "key = v".toList = GIT_SUCCESS :=
  ⟨(parse_variable_empty_value (Reader.start []) none "key ".toList [] (by decide)
      (by decide)).1 (by decide),
   ((parse_variable_empty_value (Reader.start []) none "key ".toList " v".toList (by decide)
      (by decide)).2 (by decide)).1⟩

/-! ## Evaluations of the reader and of the parsers -/

/-- C4: `config_parse` accepts a variable line that precedes every section
header.  On the buffer `a = b` + LF it returns `GIT_SUCCESS`, with pointers
of 8 or of 4 bytes and whatever the text behind `name_start` is. -/
theorem config_parse_accepts_variable_without_section (name_start : List Char)
    (name_value : Int) (ext : List Char → Reader → Option (Int × Reader)) :
    config_parse ⟨8, name_start, name_value, ext⟩ (Reader.start "a = b\n".toList) =
      some (GIT_SUCCESS, ⟨"a = b\n".toList, 6, 1, true⟩) ∧
    config_parse ⟨4, name_start, name_value, ext⟩ (Reader.start "a = b\n".toList) =
      some (GIT_SUCCESS, ⟨"a = b\n".toList, 6, 1, true⟩) := by
  constructor <;> rfl

/-- C7: `parse_variable` does not look at the name.  It returns
`GIT_SUCCESS` for `a!b = c`, whose name holds a `!`, for `= c`, whose name
is empty, and for `a b`, which has no `=` and holds a blank. -/
theorem parse_variable_accepts_bad_name :
    parse_variable (Reader.start []) none "a!b = c".toList = GIT_SUCCESS ∧
    parse_variable (Reader.start []) none "= c".toList = GIT_SUCCESS ∧
    parse_variable (Reader.start []) none "a b".toList = GIT_SUCCESS := by
  decide

theorem strchr_eq_none (s : List Char) (start : Nat) (c : Char) (hc : c ≠ NUL)
    (h : c ∉ s.drop start) : strchr s start c = none := by
  unfold strchr
  split
  · rfl
  · exact strchr_from_eq_none _ c h hc start

theorem cfg_readline_eq_none (ptrSize : Nat) (cfg : Reader)
    (h : '\n' ∉ cfg.buffer.drop cfg.read_ptr) : cfg_readline ptrSize cfg = none := by
  have hs := strchr_eq_none cfg.buffer cfg.read_ptr '\n' (by decide) h
  simp [cfg_readline, hs, readline_find_end, is_linebreak]

/-- C10: when the text from the read pointer on holds no LF, `cfg_readline`
has no defined result: `strchr` returns the null pointer and `is_linebreak`
reads through it before the test `line_end == NULL` is reached. -/
theorem cfg_readline_without_newline (ptrSize : Nat) (cfg : Reader)
    (h : '\n' ∉ cfg.buffer.drop cfg.read_ptr) : cfg_readline ptrSize cfg = none := by
  have hs := strchr_eq_none cfg.buffer cfg.read_ptr '\n' (by decide) h
  simp [cfg_readline, hs, readline_find_end, is_linebreak]

/-- Witness for C10: the buffer `a` read from its start, with pointers of
8 bytes. -/
theorem cfg_readline_without_newline_witness :
    '\n' ∉ (Reader.start "a".toList).buffer.drop (Reader.start "a".toList).read_ptr ∧
    cfg_readline 8 (Reader.start "a".toList) = none :=
  ⟨by decide, cfg_readline_without_newline 8 (Reader.start "a".toList) (by decide)⟩

/-- C5: when no `]` follows `name_start`, `parse_section_header` returns
`NULL`, which the caller receives as the status `GIT_SUCCESS`, and leaves
the reader as it was. -/
theorem parse_section_header_missing_bracket (env : Env) (cfg : Reader) (line : List Char)
    (h : ']' ∉ env.name_start) :
    parse_section_header env cfg line = some (HeaderReturn.null, cfg) ∧
    HeaderReturn.null.status env = GIT_SUCCESS := by
  have hs : strchr env.name_start 0 ']' = none :=
    strchr_eq_none env.name_start 0 ']' (by decide) (by simpa using h)
  simp [parse_section_header, hs, HeaderReturn.status, GIT_SUCCESS]

/-- Witness for C5: the line `[section`, with `name_start` at the start of
the line, and `config_parse` on the buffer `[section` + LF, which returns
`GIT_SUCCESS`. -/
theorem parse_section_header_missing_bracket_witness :
    ']' ∉ "[section".toList ∧
    parse_section_header ⟨8, "[section".toList, 1, fun _ _ => none⟩
      ⟨"[section\n".toList, 9, 1, true⟩ "[section".toList =
      some (HeaderReturn.null, ⟨"[section\n".toList, 9, 1, true⟩) ∧
    config_parse ⟨8, "[section".toList, 1, fun _ _ => none⟩
      (Reader.start "[section\n".toList) =
      some (GIT_SUCCESS, ⟨"[section\n".toList, 9, 1, true⟩) :=
  ⟨by decide,
   (parse_section_header_missing_bracket ⟨8, "[section".toList, 1, fun _ _ => none⟩
      ⟨"[section\n".toList, 9, 1, true⟩ "[section".toList (by decide)).1,
   by rfl⟩

/-- C6: in `config_parse`, the header line `[Core]` does not yield a name.
On the buffer `[Core]` LF `[core]` LF the reader stands behind the first
LF when `parse_section_header` is called for `[Core]`, and the call
returns `NULL` whatever the text behind `name_start` is. -/
theorem parse_section_header_ignores_line (env : Env) :
    cfg_readline 8 (Reader.start "[Core]\n[core]\n".toList) =
      some ("[Core]".toList, ⟨"[Core]\n[core]\n".toList, 7, 1, false⟩) ∧
    (parse_section_header env ⟨"[Core]\n[core]\n".toList, 7, 1, false⟩
      "[Core]".toList).map Prod.fst = some HeaderReturn.null := by
  refine ⟨by decide, ?_⟩
  unfold parse_section_header
  cases strchr env.name_start 0 ']' with
  | none => rfl
  | some name_end => rfl

/-! ## Bytes of a buffer and comparisons -/

theorem byte_at_cast (s : List Char) (i : Nat) :
    byte_at s (i : Int) =
      if i < s.length then s[i]? else if i = s.length then some NUL else none := by
  unfold byte_at
  simp

theorem byte_at_neg (s : List Char) (i : Int) (h : i < 0) : byte_at s i = none := by
  unfold byte_at
  simp [h]

theorem memcmp_eq_false_iff (a : List Char) (p : Int) (b : List Char) (n : Nat) :
    memcmp_eq a p b n = some false ↔
      ∃ k, k < n ∧ ∃ x y, byte_at a (p + (k : Int)) = some x ∧
        byte_at b (k : Int) = some y ∧ x ≠ y := by
  unfold memcmp_eq
  simp only []
  split
  · rename_i h
    simp only [true_iff]
    rw [List.any_eq_true] at h
    obtain ⟨xy, hmem, hxy⟩ := h
    rw [List.mem_map] at hmem
    obtain ⟨k, hk, rfl⟩ := hmem
    refine ⟨k, List.mem_range.mp hk, ?_⟩
    cases hx : byte_at a (p + (k : Int)) with
    | none => simp [hx] at hxy
    | some x =>
      cases hy : byte_at b (k : Int) with
      | none => simp [hx, hy] at hxy
      | some y =>
        refine ⟨x, y, rfl, rfl, ?_⟩
        simpa [hx, hy] using hxy
  · rename_i h
    have hne : ¬ ∃ k, k < n ∧ ∃ x y, byte_at a (p + (k : Int)) = some x ∧
        byte_at b (k : Int) = some y ∧ x ≠ y := by
      rintro ⟨k, hk, x, y, hx, hy, hxy⟩
      apply h
      rw [List.any_eq_true]
      refine ⟨(byte_at a (p + (k : Int)), byte_at b (k : Int)), ?_, ?_⟩
      · exact List.mem_map.mpr ⟨k, List.mem_range.mpr hk, rfl⟩
      · simp [hx, hy, hxy]
    split <;> simp only [reduceCtorEq, false_iff, Option.some.injEq, Bool.true_eq_false] <;>
      exact hne

theorem memcmp_eq_true_imp (a : List Char) (p : Int) (b : List Char) (n : Nat)
    (h : memcmp_eq a p b n = some true) :
    ∀ k, k < n → (byte_at a (p + (k : Int))).isSome = true ∧
      (byte_at b (k : Int)).isSome = true := by
  unfold memcmp_eq at h
  simp only [] at h
  split at h
  · simp at h
  · split at h
    · rename_i hall
      intro k hk
      rw [List.all_eq_true] at hall
      have := hall (byte_at a (p + (k : Int)), byte_at b (k : Int))
        (List.mem_map.mpr ⟨k, List.mem_range.mpr hk, rfl⟩)
      simpa using this
    · simp at h

theorem byte_at_append (pre rest : List Char) (j : Nat) :
    byte_at (pre ++ rest) ((pre.length : Int) + (j : Int)) = byte_at rest (j : Int) := by
  have e : (pre.length : Int) + (j : Int) = ((pre.length + j : Nat) : Int) := by push_cast; rfl
  rw [e, byte_at_cast, byte_at_cast]
  simp only [List.length_append, Nat.add_lt_add_iff_left, Nat.add_left_cancel_iff]
  by_cases h1 : j < rest.length
  · simp only [h1, if_true]
    rw [List.getElem?_append_right (by omega)]
    congr 1
    omega
  · simp only [h1, if_false]

theorem byte_at_append_zero (pre rest : List Char) :
    byte_at (pre ++ rest) (pre.length : Int) = byte_at rest ((0 : Nat) : Int) := by
  have := byte_at_append pre rest 0
  simpa using this

theorem byte_at_prev (pre rest : List Char) :
    byte_at (pre ++ rest) ((pre.length : Int) - 1) = pre.getLast? := by
  rcases List.eq_nil_or_concat pre with h | ⟨pre1, x, h⟩
  · subst h
    exact byte_at_neg _ _ (by simp)
  · rw [List.concat_eq_append] at h
    subst h
    have e : (((pre1 ++ [x]).length : Nat) : Int) - 1 = (pre1.length : Int) + ((0 : Nat) : Int) := by
      simp
    rw [e, List.append_assoc, byte_at_append, byte_at_cast]
    simp

theorem byte_at_prev2 (pre rest : List Char) :
    byte_at (pre ++ rest) ((pre.length : Int) - 2) = pre.dropLast.getLast? := by
  rcases List.eq_nil_or_concat pre with h | ⟨pre1, x, h⟩
  · subst h
    exact byte_at_neg _ _ (by simp)
  · rw [List.concat_eq_append] at h
    subst h
    have hd : (pre1 ++ [x]).dropLast = pre1 := by simp
    have e : (((pre1 ++ [x]).length : Nat) : Int) - 2 = (pre1.length : Int) - 1 := by
      simp
      omega
    rw [hd, e, List.append_assoc]
    exact byte_at_prev pre1 ([x] ++ rest)

theorem byte_at_next (pre after : List Char) (c : Char) :
    byte_at (pre ++ c :: after) ((pre.length : Int) + 1) = some (after.headD NUL) := by
  have h := byte_at_append pre (c :: after) 1
  have e : (pre.length : Int) + ((1 : Nat) : Int) = (pre.length : Int) + 1 := by simp
  rw [e] at h
  rw [h, byte_at_cast]
  cases after <;> simp

theorem byte_at_here (pre after : List Char) (c : Char) :
    byte_at (pre ++ c :: after) (pre.length : Int) = some c := by
  rw [byte_at_append_zero, byte_at_cast]
  simp

theorem differs_iff (o : Option Char) (c : Char) :
    differs o c = true ↔ ∃ x, o = some x ∧ x ≠ c := by
  cases o <;> simp [differs]

theorem memcmp_unix_false_iff (a : List Char) (p : Int) (n : Nat) (h : 3 ≤ n) :
    memcmp_eq a p LINEBREAK_UNIX n = some false ↔
      (differs (byte_at a p) '\\' = true ∨ differs (byte_at a (p + 1)) '\n' = true ∨
        differs (byte_at a (p + 2)) NUL = true) := by
  rw [memcmp_eq_false_iff]
  simp only [differs_iff]
  constructor
  · rintro ⟨k, hk, x, y, hx, hy, hxy⟩
    rw [byte_at_cast] at hy
    rcases k with _ | _ | _ | k
    · left
      simp [LINEBREAK_UNIX] at hy hx
      exact ⟨x, hx, by rw [hy]; exact hxy⟩
    · right; left
      simp [LINEBREAK_UNIX] at hy hx
      exact ⟨x, hx, by rw [hy]; exact hxy⟩
    · right; right
      simp [LINEBREAK_UNIX] at hy hx
      exact ⟨x, hx, by rw [hy]; exact hxy⟩
    · simp [LINEBREAK_UNIX] at hy
  · rintro (⟨x, hx, hxy⟩ | ⟨x, hx, hxy⟩ | ⟨x, hx, hxy⟩)
    · exact ⟨0, by omega, x, '\\', by simpa using hx, by rw [byte_at_cast]; simp [LINEBREAK_UNIX], hxy⟩
    · exact ⟨1, by omega, x, '\n', by simpa using hx, by rw [byte_at_cast]; simp [LINEBREAK_UNIX], hxy⟩
    · exact ⟨2, by omega, x, NUL, by simpa using hx, by rw [byte_at_cast]; simp [LINEBREAK_UNIX], hxy⟩

theorem memcmp_win32_false_iff (a : List Char) (p : Int) (n : Nat) (h : 4 ≤ n) :
    memcmp_eq a p LINEBREAK_WIN32 n = some false ↔
      (differs (byte_at a p) '\\' = true ∨ differs (byte_at a (p + 1)) '\r' = true ∨
        differs (byte_at a (p + 2)) '\n' = true ∨ differs (byte_at a (p + 3)) NUL = true) := by
  rw [memcmp_eq_false_iff]
  simp only [differs_iff]
  constructor
  · rintro ⟨k, hk, x, y, hx, hy, hxy⟩
    rw [byte_at_cast] at hy
    rcases k with _ | _ | _ | _ | k
    · left
      simp [LINEBREAK_WIN32] at hy hx
      exact ⟨x, hx, by rw [hy]; exact hxy⟩
    · right; left
      simp [LINEBREAK_WIN32] at hy hx
      exact ⟨x, hx, by rw [hy]; exact hxy⟩
    · right; right; left
      simp [LINEBREAK_WIN32] at hy hx
      exact ⟨x, hx, by rw [hy]; exact hxy⟩
    · right; right; right
      simp [LINEBREAK_WIN32] at hy hx
      exact ⟨x, hx, by rw [hy]; exact hxy⟩
    · simp [LINEBREAK_WIN32] at hy
  · rintro (⟨x, hx, hxy⟩ | ⟨x, hx, hxy⟩ | ⟨x, hx, hxy⟩ | ⟨x, hx, hxy⟩)
    · exact ⟨0, by omega, x, '\\', by simpa using hx, by rw [byte_at_cast]; simp [LINEBREAK_WIN32], hxy⟩
    · exact ⟨1, by omega, x, '\r', by simpa using hx, by rw [byte_at_cast]; simp [LINEBREAK_WIN32], hxy⟩
    · exact ⟨2, by omega, x, '\n', by simpa using hx, by rw [byte_at_cast]; simp [LINEBREAK_WIN32], hxy⟩
    · exact ⟨3, by omega, x, NUL, by simpa using hx, by rw [byte_at_cast]; simp [LINEBREAK_WIN32], hxy⟩

theorem memcmp_unix_ne_true (a : List Char) (p : Int) (n : Nat) (h : 4 ≤ n) :
    memcmp_eq a p LINEBREAK_UNIX n ≠ some true := by
  intro ht
  have := (memcmp_eq_true_imp a p LINEBREAK_UNIX n ht 3 (by omega)).2
  rw [byte_at_cast] at this
  simp [LINEBREAK_UNIX] at this

theorem memcmp_win32_true_imp (a : List Char) (p : Int) (n : Nat) (h : 4 ≤ n)
    (ht : memcmp_eq a p LINEBREAK_WIN32 n = some true) : byte_at a (p + 3) = some NUL := by
  have hk := (memcmp_eq_true_imp a p LINEBREAK_WIN32 n ht 3 (by omega)).1
  have hnf : ¬ memcmp_eq a p LINEBREAK_WIN32 n = some false := by rw [ht]; simp
  rw [memcmp_win32_false_iff a p n h] at hnf
  simp only [not_or] at hnf
  have h3 := hnf.2.2.2
  simp only [Nat.cast_ofNat] at hk
  cases hb : byte_at a (p + 3) with
  | none => rw [hb] at hk; simp at hk
  | some x =>
    rw [hb] at h3
    simp only [differs, bne_iff_ne, ne_eq, Decidable.not_not] at h3
    rw [h3]

/-! ## The line-break test at an LF -/

theorem differs_next (after : List Char) (hnul : after.head? ≠ some NUL) :
    differs (some (after.headD NUL)) NUL = !after.isEmpty := by
  cases after with
  | nil => simp [differs]
  | cons a as =>
    have : a ≠ NUL := by simpa using hnul
    simp [differs, this]

theorem memcmp_unix_at_newline (n : Nat) (h : 4 ≤ n) (pre after : List Char)
    (hnul : after.head? ≠ some NUL) :
    memcmp_eq (pre ++ '\n' :: after) ((pre.length : Int) - 1) LINEBREAK_UNIX n = some false ↔
      (differs pre.getLast? '\\' || !after.isEmpty) = true := by
  rw [memcmp_unix_false_iff _ _ n (by omega)]
  have e1 : (pre.length : Int) - 1 + 1 = (pre.length : Int) := by omega
  have e2 : (pre.length : Int) - 1 + 2 = (pre.length : Int) + 1 := by omega
  rw [e1, e2, byte_at_prev, byte_at_here, byte_at_next, differs_next after hnul]
  simp [differs]

theorem memcmp_win32_at_newline (n : Nat) (h : 4 ≤ n) (pre after : List Char)
    (hnul : after.head? ≠ some NUL) :
    memcmp_eq (pre ++ '\n' :: after) ((pre.length : Int) - 2) LINEBREAK_WIN32 n = some false ↔
      (differs pre.dropLast.getLast? '\\' || differs pre.getLast? '\r' ||
        !after.isEmpty) = true := by
  rw [memcmp_win32_false_iff _ _ n h]
  have e1 : (pre.length : Int) - 2 + 1 = (pre.length : Int) - 1 := by omega
  have e2 : (pre.length : Int) - 2 + 2 = (pre.length : Int) := by omega
  have e3 : (pre.length : Int) - 2 + 3 = (pre.length : Int) + 1 := by omega
  rw [e1, e2, e3, byte_at_prev, byte_at_prev2, byte_at_here, byte_at_next,
    differs_next after hnul]
  have hd : differs (some '\n') '\n' = false := by decide
  rw [hd]
  simp only [Bool.or_eq_true, Bool.false_eq_true, false_or, or_assoc]

theorem is_linebreak_false_iff (n : Nat) (h : 4 ≤ n) (pre after : List Char)
    (hnul : after.head? ≠ some NUL) :
    is_linebreak n (pre ++ '\n' :: after) (some pre.length) = some false ↔
      linebreak_decided pre after = true := by
  have hU := memcmp_unix_at_newline n h pre after hnul
  have hW := memcmp_win32_at_newline n h pre after hnul
  have hT := memcmp_unix_ne_true (pre ++ '\n' :: after) ((pre.length : Int) - 1) n h
  unfold is_linebreak linebreak_decided
  simp only [Bool.and_eq_true]
  rw [← hU, ← hW]
  cases hu : memcmp_eq (pre ++ '\n' :: after) ((pre.length : Int) - 1) LINEBREAK_UNIX n with
  | none => simp
  | some b =>
    cases b with
    | true => exact absurd hu hT
    | false => simp

theorem is_linebreak_true_imp (n : Nat) (h : 4 ≤ n) (pre after : List Char)
    (hnul : after.head? ≠ some NUL)
    (ht : is_linebreak n (pre ++ '\n' :: after) (some pre.length) = some true) :
    after = [] := by
  have hT := memcmp_unix_ne_true (pre ++ '\n' :: after) ((pre.length : Int) - 1) n h
  unfold is_linebreak at ht
  simp only [] at ht
  cases hu : memcmp_eq (pre ++ '\n' :: after) ((pre.length : Int) - 1) LINEBREAK_UNIX n with
  | none => rw [hu] at ht; simp at ht
  | some b =>
    cases b with
    | true => exact absurd hu hT
    | false =>
      rw [hu] at ht
      simp only [] at ht
      have h3 := memcmp_win32_true_imp _ _ n h ht
      have e3 : (pre.length : Int) - 2 + 3 = (pre.length : Int) + 1 := by omega
      rw [e3, byte_at_next] at h3
      cases after with
      | nil => rfl
      | cons a as =>
        have : a ≠ NUL := by simpa using hnul
        simp at h3
        exact absurd h3 this

/-! ## The loops of `cfg_readline` on a line that ends in LF -/

theorem readline_find_end_at_newline (n : Nat) (h : 4 ≤ n) (pre after : List Char)
    (hnul : after.head? ≠ some NUL) (fuel : Nat) :
    readline_find_end n (pre ++ '\n' :: after) (fuel + 2) (some pre.length) =
      if linebreak_decided pre after = true then some (some pre.length) else none := by
  have hF := is_linebreak_false_iff n h pre after hnul
  rw [readline_find_end]
  cases hl : is_linebreak n (pre ++ '\n' :: after) (some pre.length) with
  | none =>
    have : ¬ linebreak_decided pre after = true := by
      intro hd; rw [← hF, hl] at hd; simp at hd
    simp [this]
  | some b =>
    cases b with
    | false =>
      have : linebreak_decided pre after = true := hF.mp hl
      simp [this]
    | true =>
      have hd : ¬ linebreak_decided pre after = true := by
        intro hd; rw [← hF, hl] at hd; simp at hd
      have ha := is_linebreak_true_imp n h pre after hnul hl
      subst ha
      have hs : strchr (pre ++ ['\n']) (pre.length + 1) '\n' = none := by
        simp [strchr, strchr_from, NUL]
      simp only [hd, if_false, hs]
      rw [readline_find_end]
      simp [is_linebreak]

theorem getD_append_cons (before tail : List Char) (c d : Char) :
    (before ++ c :: tail).getD before.length d = c := by
  rw [List.getD_eq_getElem?_getD, List.getElem?_append_right (Nat.le_refl _)]
  simp

theorem readline_skip_space_eq (l : List Char) :
    ∀ (before rest buf : List Char), buf = before ++ l ++ rest →
      readline_skip_space buf l.length before.length =
        before.length + (l.takeWhile isspace).length := by
  induction l with
  | nil => intro before rest buf _; simp [readline_skip_space]
  | cons c l ih =>
    intro before rest buf hbuf
    have hget : buf.getD before.length NUL = c := by
      rw [hbuf, List.append_assoc, List.cons_append]
      exact getD_append_cons before (l ++ rest) c NUL
    rw [List.length_cons, readline_skip_space, hget]
    by_cases hc : isspace c = true
    · have := ih (before ++ [c]) rest buf (by simp [hbuf])
      simp only [List.length_append, List.length_singleton] at this
      simp only [hc, if_true, List.takeWhile_cons_of_pos, List.length_cons]
      rw [this]
      omega
    · simp [hc]

theorem readline_copy_eq (n : Nat) (h : 4 ≤ n) (after m : List Char) :
    ∀ (b1 buf : List Char) (line_end : Nat),
      buf = b1 ++ m ++ '\n' :: after → line_end = b1.length + m.length → '\n' ∉ m →
      memcmp_eq buf ((line_end : Int) - 1) LINEBREAK_UNIX n = some false →
      memcmp_eq buf ((line_end : Int) - 2) LINEBREAK_WIN32 n = some false →
      readline_copy n buf line_end m.length b1.length = some m := by
  induction m with
  | nil =>
    intro b1 buf line_end _ hle _ _ _
    simp [readline_copy, hle]
  | cons c m ih =>
    intro b1 buf line_end hbuf hle hm hU hW
    have hlt : b1.length < line_end := by rw [hle]; simp
    have hbuf1 : buf = b1 ++ c :: (m ++ '\n' :: after) := by simp [hbuf]
    have hget : buf.getD b1.length NUL = c := by
      rw [hbuf1]; exact getD_append_cons b1 _ c NUL
    have hUs : memcmp_eq buf (b1.length : Int) LINEBREAK_UNIX n = some false := by
      cases m with
      | nil =>
        have e : (line_end : Int) - 1 = (b1.length : Int) := by
          rw [hle]; simp
        rw [← e]; exact hU
      | cons d m1 =>
        have hd : d ≠ '\n' := fun e => hm (by simp [e])
        rw [memcmp_unix_false_iff _ _ n (by omega)]
        right; left
        rw [hbuf1, byte_at_next]
        simp [differs, hd]
    have hWs : memcmp_eq buf (b1.length : Int) LINEBREAK_WIN32 n = some false := by
      rw [memcmp_win32_false_iff _ _ n h]
      cases m with
      | nil =>
        right; left
        rw [hbuf1, byte_at_next]
        simp [differs]
      | cons d m1 =>
        cases m1 with
        | nil =>
          have e : (line_end : Int) - 2 = (b1.length : Int) := by
            rw [hle]; simp
          rw [← memcmp_win32_false_iff _ _ n h, ← e]; exact hW
        | cons d1 m2 =>
          have hd : d1 ≠ '\n' := fun e => hm (by simp [e])
          right; right; left
          have hb := byte_at_append b1 (c :: d :: d1 :: (m2 ++ '\n' :: after)) 2
          have e2 : (b1.length : Int) + ((2 : Nat) : Int) = (b1.length : Int) + 2 := by simp
          rw [e2] at hb
          rw [hbuf1]
          simp only [List.cons_append] at hb ⊢
          rw [hb, byte_at_cast]
          simp [differs, hd]
    have hrec := ih (b1 ++ [c]) buf line_end (by simp [hbuf]) (by simp [hle]; omega)
      (fun e => hm (by simp [e])) hU hW
    simp only [List.length_append, List.length_singleton] at hrec
    rw [List.length_cons, readline_copy]
    simp only [hlt, if_true, hUs, hWs, hrec, hget, Option.map_some']

theorem strchr_at_line (before l after : List Char) (c : Char) (hl : c ∉ l) :
    strchr (before ++ l ++ c :: after) before.length c = some (before.length + l.length) := by
  unfold strchr
  have hlen : ¬ (before ++ l ++ c :: after).length < before.length := by
    simp only [List.length_append]; omega
  rw [if_neg hlen, List.append_assoc, List.drop_left]
  exact strchr_from_append_cons l after c hl before.length

theorem getD_after_newline (pre after : List Char) (c : Char) :
    (pre ++ c :: after).getD (pre.length + 1) NUL = after.headD NUL := by
  rw [List.getD_eq_getElem?_getD, List.getElem?_append_right (by omega)]
  cases after <;> simp

/-- The result of `cfg_readline`, for pointers of at least 4 bytes, when
the text from the read pointer on is `l` followed by an LF: the line `l`
without the white space at its two ends, and the reader behind the LF. -/
theorem cfg_readline_at_line (n : Nat) (h : 4 ≤ n) (before l after : List Char)
    (hl : '\n' ∉ l) (hnul : after.head? ≠ some NUL) (ln : Int) (e : Bool) :
    cfg_readline n ⟨before ++ l ++ '\n' :: after, before.length, ln, e⟩ =
      if linebreak_decided (before ++ l) after = true then
        some (readline_trim_end (l.dropWhile isspace),
          ⟨before ++ l ++ '\n' :: after, before.length + l.length + 1, wrap_int (ln + 1),
            after.isEmpty || e⟩)
      else none := by
  have hs := strchr_at_line before l after '\n' hl
  have hfuel : (before ++ l ++ '\n' :: after).length + 1 =
      (before.length + l.length + after.length) + 2 := by
    simp only [List.length_append, List.length_cons]; omega
  have hfind := readline_find_end_at_newline n h (before ++ l) after hnul
    (before.length + l.length + after.length)
  have hplen : (before ++ l).length = before.length + l.length := by simp
  rw [hplen] at hfind
  unfold cfg_readline
  simp only [hs, hfuel, hfind]
  by_cases hd : linebreak_decided (before ++ l) after = true
  · simp only [hd, if_true]
    have hU := (memcmp_unix_at_newline n h (before ++ l) after hnul).mpr
      (by unfold linebreak_decided at hd; simp only [Bool.and_eq_true] at hd; exact hd.1)
    have hW := (memcmp_win32_at_newline n h (before ++ l) after hnul).mpr
      (by unfold linebreak_decided at hd; simp only [Bool.and_eq_true] at hd; exact hd.2)
    rw [hplen] at hU hW
    have hskip := readline_skip_space_eq l before ('\n' :: after) _ rfl
    have hsub : before.length + l.length - before.length = l.length := by omega
    rw [hsub, hskip]
    have hsplit : l = l.takeWhile isspace ++ l.dropWhile isspace :=
      (List.takeWhile_append_dropWhile isspace l).symm
    have hlen2 : l.length = (l.takeWhile isspace).length + (l.dropWhile isspace).length := by
      have := congrArg List.length hsplit
      rw [List.length_append] at this
      exact this
    have hcopy := readline_copy_eq n h after (l.dropWhile isspace)
      (before ++ l.takeWhile isspace) (before ++ l ++ '\n' :: after)
      (before.length + l.length)
      (by rw [List.append_assoc before (l.takeWhile isspace),
        List.takeWhile_append_dropWhile])
      (by simp only [List.length_append]; omega)
      (fun hm => hl (List.dropWhile_subset isspace hm)) hU hW
    have hsub2 : before.length + l.length - (before.length + (l.takeWhile isspace).length) =
        (l.dropWhile isspace).length := by omega
    simp only [List.length_append] at hcopy
    rw [hsub2, hcopy]
    have hg1 : (before ++ l ++ '\n' :: after).getD (before.length + l.length) NUL = '\n' := by
      rw [← hplen]; exact getD_append_cons (before ++ l) after '\n' NUL
    have hg2 : (before ++ l ++ '\n' :: after).getD (before.length + l.length + 1) NUL =
        after.headD NUL := by
      rw [← hplen]; exact getD_after_newline (before ++ l) after '\n'
    simp only [hg1, if_true, hg2]
    cases after with
    | nil => simp
    | cons a as =>
      have : a ≠ NUL := by simpa using hnul
      simp [this]
  · simp only [hd, if_false]
    simp

/-! ## LF and CR LF line ends -/

theorem to_crlf_append (a b : List Char) : to_crlf (a ++ b) = to_crlf a ++ to_crlf b := by
  induction a with
  | nil => rfl
  | cons c a ih =>
    by_cases hc : c = '\n' <;> simp [to_crlf, hc, ih]

theorem to_crlf_of_not_mem (l : List Char) (h : '\n' ∉ l) : to_crlf l = l := by
  induction l with
  | nil => rfl
  | cons c l ih =>
    have hc : c ≠ '\n' := fun e => h (by simp [e])
    have hl : '\n' ∉ l := fun e => h (by simp [e])
    simp [to_crlf, hc, ih hl]

theorem to_crlf_getLast? (x : List Char) : (to_crlf x).getLast? = x.getLast? := by
  rcases List.eq_nil_or_concat x with h | ⟨x1, c, h⟩
  · subst h; rfl
  · rw [List.concat_eq_append] at h
    subst h
    rw [to_crlf_append]
    by_cases hc : c = '\n'
    · subst hc
      have : to_crlf ['\n'] = ['\r'] ++ ['\n'] := rfl
      rw [this, ← List.append_assoc, List.getLast?_append, List.getLast?_append]
      simp
    · have : to_crlf [c] = [c] := by simp [to_crlf, hc]
      rw [this, List.getLast?_append, List.getLast?_append]
      simp

theorem to_crlf_isEmpty (x : List Char) : (to_crlf x).isEmpty = x.isEmpty := by
  cases x with
  | nil => rfl
  | cons c x => by_cases hc : c = '\n' <;> simp [to_crlf, hc]

theorem to_crlf_head_ne_nul (x : List Char) (h : x.head? ≠ some NUL) :
    (to_crlf x).head? ≠ some NUL := by
  cases x with
  | nil => simp [to_crlf]
  | cons c x =>
    by_cases hc : c = '\n'
    · simp [to_crlf, hc, NUL]
    · simpa [to_crlf, hc] using h

theorem to_crlf_length_le (x : List Char) : x.length ≤ (to_crlf x).length := by
  induction x with
  | nil => simp [to_crlf]
  | cons c x ih =>
    by_cases hc : c = '\n' <;> simp [to_crlf, hc] <;> omega

theorem linebreak_decided_crlf (pre after : List Char) (hcr : '\r' ∉ pre) :
    linebreak_decided (to_crlf pre ++ ['\r']) (to_crlf after) = linebreak_decided pre after := by
  have hlast : pre.getLast? ≠ some '\r' := by
    intro e
    exact hcr (List.mem_of_getLast?_eq_some e)
  unfold linebreak_decided
  rw [List.getLast?_append, List.dropLast_concat, to_crlf_getLast?, to_crlf_isEmpty]
  cases hl : pre.getLast? with
  | none =>
    have h2 : pre.dropLast.getLast? = none := by
      rw [List.getLast?_eq_none_iff] at hl ⊢
      subst hl; rfl
    simp [differs, h2]
  | some x =>
    have hx : x ≠ '\r' := by
      intro e; apply hlast; rw [hl, e]
    simp [differs, hx]

theorem dropWhile_append_space (p : Char → Bool) (c : Char) (hc : p c = true) (l : List Char) :
    (l ++ [c]).dropWhile p = if l.dropWhile p = [] then [] else l.dropWhile p ++ [c] := by
  induction l with
  | nil => simp [List.dropWhile, hc]
  | cons x l ih =>
    by_cases hx : p x = true
    · simp only [List.cons_append, List.dropWhile, hx]
      exact ih
    · have hx2 : p x = false := by simpa using hx
      simp [List.dropWhile, hx2]

theorem readline_trim_end_append_space (c : Char) (hc : isspace c = true) (m : List Char) :
    readline_trim_end (m ++ [c]) = readline_trim_end m := by
  unfold readline_trim_end
  simp [List.dropWhile, hc]

theorem readline_line_crlf (l : List Char) :
    readline_trim_end ((l ++ ['\r']).dropWhile isspace) =
      readline_trim_end (l.dropWhile isspace) := by
  rw [dropWhile_append_space isspace '\r' (by decide) l]
  by_cases h : l.dropWhile isspace = []
  · simp [h]
  · simp only [h, if_false]
    exact readline_trim_end_append_space '\r' (by decide) _

theorem exists_first_split (c : Char) (s : List Char) (h : c ∈ s) :
    ∃ l after, s = l ++ c :: after ∧ c ∉ l := by
  induction s with
  | nil => simp at h
  | cons x s ih =>
    by_cases hx : x = c
    · exact ⟨[], s, by simp [hx], by simp⟩
    · have hs : c ∈ s := by
        rcases List.mem_cons.mp h with e | e
        · exact absurd e.symm hx
        · exact e
      obtain ⟨l, after, hl, hn⟩ := ih hs
      refine ⟨x :: l, after, by simp [hl], ?_⟩
      intro hm
      rcases List.mem_cons.mp hm with e | e
      · exact hx e.symm
      · exact hn e

theorem read_lines_crlf_aux (n : Nat) (h4 : 4 ≤ n) :
    ∀ (fuelL fuelC : Nat) (before rest : List Char) (ln : Int) (e : Bool),
      '\r' ∉ before ++ rest → NUL ∉ rest →
      rest.length < fuelL → (to_crlf rest).length < fuelC →
      read_lines n fuelC ⟨to_crlf (before ++ rest), (to_crlf before).length, ln, e⟩ =
        read_lines n fuelL ⟨before ++ rest, before.length, ln, e⟩ := by
  intro fuelL
  induction fuelL with
  | zero => intro fuelC before rest ln e _ _ hf _; omega
  | succ k ih =>
    intro fuelC before rest ln e hcr hnul hfL hfC
    cases fuelC with
    | zero => omega
    | succ j =>
      rw [read_lines, read_lines]
      cases e with
      | true => simp
      | false =>
        simp only [Bool.false_eq_true, if_false]
        by_cases hmem : '\n' ∈ rest
        · obtain ⟨l, after, hsplit, hl⟩ := exists_first_split '\n' rest hmem
          subst hsplit
          have hnulA : after.head? ≠ some NUL := by
            intro hh
            apply hnul
            have : NUL ∈ after := List.mem_of_mem_head? hh
            simp [this]
          have hcrP : '\r' ∉ before ++ l := by
            intro hh
            apply hcr
            rw [← List.append_assoc]
            exact List.mem_append_left _ hh
          have hbufL : before ++ (l ++ '\n' :: after) = before ++ l ++ '\n' :: after := by
            simp
          have hbufC : to_crlf (before ++ (l ++ '\n' :: after)) =
              to_crlf before ++ (l ++ ['\r']) ++ '\n' :: to_crlf after := by
            rw [to_crlf_append, to_crlf_append, to_crlf_of_not_mem l hl]
            simp [to_crlf]
          have hL := cfg_readline_at_line n h4 before l after hl hnulA ln false
          have hC := cfg_readline_at_line n h4 (to_crlf before) (l ++ ['\r']) (to_crlf after)
            (by
              intro hh
              rcases List.mem_append.mp hh with e1 | e1
              · exact hl e1
              · simp at e1)
            (to_crlf_head_ne_nul after hnulA) ln false
          have hdec : linebreak_decided (to_crlf before ++ (l ++ ['\r'])) (to_crlf after) =
              linebreak_decided (before ++ l) after := by
            have := linebreak_decided_crlf (before ++ l) after hcrP
            rw [to_crlf_append, to_crlf_of_not_mem l hl, List.append_assoc] at this
            exact this
          rw [hbufL] at hbufC
          rw [hbufL, hbufC, hL, hC, hdec]
          by_cases hd : linebreak_decided (before ++ l) after = true
          · simp only [hd, if_true, readline_line_crlf, to_crlf_isEmpty]
            have hrec := ih j (before ++ l ++ ['\n']) after (wrap_int (ln + 1)) (after.isEmpty || false)
              (by
                intro hh
                apply hcr
                simpa using hh)
              (fun hh => hnul (by simp [hh]))
              (by simp only [List.length_append, List.length_cons] at hfL; omega)
              (by
                rw [to_crlf_append] at hfC
                have e1 : to_crlf ('\n' :: after) = '\r' :: '\n' :: to_crlf after := rfl
                simp only [e1, List.length_append, List.length_cons] at hfC
                have := to_crlf_length_le l
                omega)
            have e1 : to_crlf (before ++ l ++ ['\n'] ++ after) =
                to_crlf before ++ (l ++ ['\r']) ++ '\n' :: to_crlf after := by
              rw [← hbufC]; simp
            have e2 : (to_crlf (before ++ l ++ ['\n'])).length =
                (to_crlf before).length + (l ++ ['\r']).length + 1 := by
              rw [to_crlf_append, to_crlf_append, to_crlf_of_not_mem l hl]
              have e3 : to_crlf ['\n'] = ['\r', '\n'] := rfl
              simp only [e3, List.length_append, List.length_cons, List.length_nil]
              omega
            have e4 : before ++ l ++ ['\n'] ++ after = before ++ l ++ '\n' :: after := by simp
            have e5 : (before ++ l ++ ['\n']).length = before.length + l.length + 1 := by
              simp only [List.length_append, List.length_singleton]
            rw [e1, e2, e4, e5] at hrec
            rw [hrec]
          · simp only [hd, if_false]
            simp
        · have hLn := cfg_readline_eq_none n ⟨before ++ rest, before.length, ln, false⟩
            (by simpa using hmem)
          have hCn := cfg_readline_eq_none n
            ⟨to_crlf (before ++ rest), (to_crlf before).length, ln, false⟩
            (by
              rw [to_crlf_append, to_crlf_of_not_mem rest hmem]
              simpa using hmem)
          rw [hLn, hCn]

theorem read_all_lines_crlf_eq (n : Nat) (h4 : 4 ≤ n) (buf : List Char)
    (hcr : '\r' ∉ buf) (hnul : NUL ∉ buf) :
    read_all_lines n (to_crlf buf) = read_all_lines n buf := by
  have h := read_lines_crlf_aux n h4 (buf.length + 1) ((to_crlf buf).length + 1) [] buf 0 false
    (by simpa using hcr) hnul (by omega) (by omega)
  simpa [read_all_lines, Reader.start, to_crlf] using h

theorem linebreak_decided_of_after (pre after : List Char) (h : after ≠ []) :
    linebreak_decided pre after = true := by
  cases after with
  | nil => exact absurd rfl h
  | cons a as => simp [linebreak_decided]

theorem read_lines_defined (n : Nat) (h4 : 4 ≤ n) :
    ∀ (fuel : Nat) (before body : List Char) (ln : Int) (e : Bool),
      NUL ∉ body → body.length + 1 < fuel →
      linebreak_decided (before ++ body) [] = true →
      (read_lines n fuel ⟨before ++ body ++ ['\n'], before.length, ln, e⟩).isSome = true := by
  intro fuel
  induction fuel with
  | zero => intro before body ln e _ hf _; omega
  | succ k ih =>
    intro before body ln e hnul hf hdec
    rw [read_lines]
    cases e with
    | true => simp
    | false =>
      simp only [Bool.false_eq_true, if_false]
      by_cases hmem : '\n' ∈ body
      · obtain ⟨l, body1, hsplit, hl⟩ := exists_first_split '\n' body hmem
        subst hsplit
        have hbuf : before ++ (l ++ '\n' :: body1) ++ ['\n'] =
            before ++ l ++ '\n' :: (body1 ++ ['\n']) := by simp
        have hnulA : (body1 ++ ['\n']).head? ≠ some NUL := by
          intro hh
          have hm : NUL ∈ body1 ++ ['\n'] := List.mem_of_mem_head? hh
          rcases List.mem_append.mp hm with e1 | e1
          · exact hnul (by simp [e1])
          · simp [NUL] at e1
        have hL := cfg_readline_at_line n h4 before l (body1 ++ ['\n']) hl hnulA ln false
        rw [linebreak_decided_of_after _ _ (by simp)] at hL
        simp only [if_true] at hL
        rw [hbuf, hL]
        have hrec := ih (before ++ l ++ ['\n']) body1 (wrap_int (ln + 1))
          ((body1 ++ ['\n']).isEmpty || false)
          (fun hh => hnul (by simp [hh]))
          (by simp only [List.length_append, List.length_cons] at hf; omega)
          (by
            have e1 : before ++ l ++ ['\n'] ++ body1 = before ++ (l ++ '\n' :: body1) := by simp
            rw [e1]; exact hdec)
        have e4 : before ++ l ++ ['\n'] ++ body1 ++ ['\n'] =
            before ++ l ++ '\n' :: (body1 ++ ['\n']) := by simp
        have e5 : (before ++ l ++ ['\n']).length = before.length + l.length + 1 := by
          simp only [List.length_append, List.length_singleton]
        rw [e4, e5] at hrec
        simpa using hrec
      · have hnulA : ([] : List Char).head? ≠ some NUL := by simp
        have hL := cfg_readline_at_line n h4 before body [] hmem hnulA ln false
        rw [hdec] at hL
        simp only [if_true] at hL
        rw [hL]
        cases k with
        | zero => omega
        | succ k1 => simp [read_lines]

/-! ## The size of a pointer in place of the length of a literal -/

theorem dropWhile_append_not_space (a : List Char) (c : Char) (hc : isspace c = false) :
    (a ++ [c]).dropWhile isspace = a.dropWhile isspace ++ [c] := by
  induction a with
  | nil => simp [List.dropWhile, hc]
  | cons x a ih =>
    by_cases hx : isspace x = true
    · simp only [List.cons_append, List.dropWhile, hx]
      exact ih
    · have hx2 : isspace x = false := by simpa using hx
      simp [List.dropWhile, hx2]

theorem readline_trim_end_append_not_space (m : List Char) (c : Char)
    (hc : isspace c = false) : readline_trim_end (m ++ [c]) = m ++ [c] := by
  unfold readline_trim_end
  simp [List.dropWhile, hc]

/-- C2: `cfg_readline` does not splice a line that ends in a backslash.
For pointers of at least 4 bytes, on the buffer `a` backslash LF `b` LF,
where `a` holds no LF, the call returns `a` (without its leading white
space) with the backslash as its last character, and leaves the read
pointer behind the first LF, so that `b` is the next line. -/
theorem cfg_readline_ignores_continuation (n : Nat) (h4 : 4 ≤ n) (a b : List Char)
    (ha : '\n' ∉ a) (hb : b.head? ≠ some NUL) :
    cfg_readline n (Reader.start (a ++ ['\\', '\n'] ++ b ++ ['\n'])) =
      some (a.dropWhile isspace ++ ['\\'],
        ⟨a ++ ['\\', '\n'] ++ b ++ ['\n'], a.length + 2, 1, false⟩) := by
  have hbuf : a ++ ['\\', '\n'] ++ b ++ ['\n'] =
      [] ++ (a ++ ['\\']) ++ '\n' :: (b ++ ['\n']) := by simp
  have hl : '\n' ∉ a ++ ['\\'] := by
    intro hh
    rcases List.mem_append.mp hh with e1 | e1
    · exact ha e1
    · simp at e1
  have hnul : (b ++ ['\n']).head? ≠ some NUL := by
    cases b with
    | nil => simp [NUL]
    | cons x b => simpa using hb
  have h := cfg_readline_at_line n h4 [] (a ++ ['\\']) (b ++ ['\n']) hl hnul 0 false
  rw [linebreak_decided_of_after _ _ (by simp)] at h
  simp only [if_true] at h
  simp only [List.length_nil] at h
  unfold Reader.start
  rw [hbuf, h, dropWhile_append_not_space a '\\' (by decide),
    readline_trim_end_append_not_space _ '\\' (by decide)]
  simp

/-- Witness for C2: on `foo = bar \\` LF `baz` LF, with pointers of 8
bytes, the first call returns `foo = bar \\` and the second `baz`; on
`foo = bar baz` LF the call returns `foo = bar baz`. -/
theorem cfg_readline_ignores_continuation_witness :
    cfg_readline 8 (Reader.start ("foo = bar ".toList ++ ['\\', '\n'] ++ "baz".toList ++ ['\n'])) =
      some ("foo = bar \\".toList, ⟨"foo = bar \\\nbaz\n".toList, 12, 1, false⟩) ∧
    cfg_readline 8 ⟨"foo = bar \\\nbaz\n".toList, 12, 1, false⟩ =
      some ("baz".toList, ⟨"foo = bar \\\nbaz\n".toList, 16, 2, true⟩) ∧
    cfg_readline 4 (Reader.start "foo = bar \\\nbaz\n".toList) =
      some ("foo = bar \\".toList, ⟨"foo = bar \\\nbaz\n".toList, 12, 1, false⟩) ∧
    cfg_readline 8 (Reader.start "foo = bar baz\n".toList) =
      some ("foo = bar baz".toList, ⟨"foo = bar baz\n".toList, 14, 1, true⟩) :=
  ⟨cfg_readline_ignores_continuation 8 (by decide) "foo = bar ".toList "baz".toList
      (by decide) (by decide),
   by decide, by decide, by decide⟩

/-- C9: `skip_bom` does not move the read pointer over a byte-order mark
that is followed by text.  For pointers of at least 4 bytes, on a buffer
that starts with EF BB BF and goes on with a character `c`, the call
leaves the reader as it was. -/
theorem skip_bom_leaves_mark (n : Nat) (h4 : 4 ≤ n) (c : Char) (rest : List Char)
    (hc : c ≠ NUL) :
    skip_bom n (Reader.start (utf8_bom ++ c :: rest)) =
      some (GIT_SUCCESS, Reader.start (utf8_bom ++ c :: rest)) := by
  have hm : memcmp_eq (utf8_bom ++ c :: rest) ((0 : Nat) : Int) utf8_bom n = some false := by
    rw [memcmp_eq_false_iff]
    refine ⟨3, by omega, c, NUL, ?_, ?_, hc⟩
    · have e : ((0 : Nat) : Int) + ((3 : Nat) : Int) = ((3 : Nat) : Int) := by simp
      rw [e, byte_at_cast]
      simp [utf8_bom]
    · rw [byte_at_cast]
      simp [utf8_bom]
  unfold skip_bom
  simp only [Reader.start] at hm ⊢
  rw [hm]

/-- Witness for C9: on the buffer EF BB BF `[a]` LF the read pointer stays
at 0, with pointers of 8 and of 4 bytes; on the buffer EF BB BF alone,
with pointers of 4 bytes, it moves by 4, behind the terminating NUL. -/
theorem skip_bom_leaves_mark_witness :
    skip_bom 8 (Reader.start (utf8_bom ++ "[a]\n".toList)) =
      some (GIT_SUCCESS, ⟨utf8_bom ++ "[a]\n".toList, 0, 0, false⟩) ∧
    skip_bom 4 (Reader.start (utf8_bom ++ "[a]\n".toList)) =
      some (GIT_SUCCESS, ⟨utf8_bom ++ "[a]\n".toList, 0, 0, false⟩) ∧
    skip_bom 4 (Reader.start utf8_bom) = some (GIT_SUCCESS, ⟨utf8_bom, 4, 0, false⟩) :=
  ⟨skip_bom_leaves_mark 8 (by decide) '[' "a]\n".toList (by decide), by decide, by decide⟩

/-! ## Character input on a buffer and on its CR LF form -/

theorem cfg_getchar_raw_at_end (buf : List Char) (ln : Int) (e : Bool) :
    cfg_getchar_raw ⟨buf, buf.length, ln, e⟩ = some ('\n', ⟨buf, buf.length + 1, ln, true⟩) := by
  have h1 : NUL ≠ '\r' := by decide
  have h2 : NUL ≠ '\n' := by decide
  simp [cfg_getchar_raw, byte_at_cast, h1, h2]

theorem cfg_getchar_raw_past (buf : List Char) (ln : Int) (e : Bool) :
    cfg_getchar_raw ⟨buf, buf.length + 1, ln, e⟩ = none := by
  have hb : byte_at buf ((buf.length + 1 : Nat) : Int) = none := by
    rw [byte_at_cast]; simp
  unfold cfg_getchar_raw
  simp only [hb]

theorem cfg_getchar_raw_at_char (before rest : List Char) (c : Char) (ln : Int) (e : Bool)
    (hc : c ≠ '\r') (hn : c ≠ NUL) :
    cfg_getchar_raw ⟨before ++ c :: rest, before.length, ln, e⟩ =
      some (c, ⟨before ++ c :: rest, before.length + 1, if c = '\n' then wrap_int (ln + 1) else ln, e⟩) := by
  have hb := byte_at_here before rest c
  unfold cfg_getchar_raw
  simp only [hb, hc, if_false, hn]
  by_cases h : c = '\n' <;> simp [h]

theorem cfg_getchar_raw_at_crlf (before rest : List Char) (ln : Int) (e : Bool) :
    cfg_getchar_raw ⟨before ++ '\r' :: '\n' :: rest, before.length, ln, e⟩ =
      some ('\n', ⟨before ++ '\r' :: '\n' :: rest, before.length + 2, wrap_int (ln + 1), e⟩) := by
  have hb := byte_at_here before ('\n' :: rest) '\r'
  have hb2 := byte_at_next before ('\n' :: rest) '\r'
  have e1 : (((before.length + 1 : Nat)) : Int) = (before.length : Int) + 1 := by simp
  have h2 : ('\n' : Char) ≠ NUL := by decide
  unfold cfg_getchar_raw
  simp only [hb, e1, hb2, List.headD_cons, if_true, h2, if_false]

theorem byte_at_cast_some (s : List Char) (i : Nat) (c : Char)
    (h : byte_at s (i : Int) = some c) : i ≤ s.length := by
  rw [byte_at_cast] at h
  by_cases h1 : i < s.length
  · omega
  · by_cases h2 : i = s.length
    · omega
    · simp [h1, h2] at h

theorem cfg_getchar_raw_advance (cfg cfg1 : Reader) (c : Char)
    (h : cfg_getchar_raw cfg = some (c, cfg1)) :
    cfg1.buffer = cfg.buffer ∧ cfg.read_ptr < cfg1.read_ptr ∧
      cfg1.read_ptr ≤ cfg.buffer.length + 1 := by
  unfold cfg_getchar_raw at h
  cases hb : byte_at cfg.buffer (cfg.read_ptr : Int) with
  | none => rw [hb] at h; simp at h
  | some c0 =>
    have hle := byte_at_cast_some _ _ _ hb
    rw [hb] at h
    simp only [] at h
    by_cases hc0 : c0 = '\r'
    · simp only [hc0, if_true] at h
      cases hb1 : byte_at cfg.buffer ((cfg.read_ptr + 1 : Nat) : Int) with
      | none => rw [hb1] at h; simp at h
      | some c1 =>
        have hle1 := byte_at_cast_some _ _ _ hb1
        rw [hb1] at h
        simp only [] at h
        by_cases hc1 : c1 = '\n'
        · simp only [hc1, if_true] at h
          split at h <;> (simp only [Option.some.injEq, Prod.mk.injEq] at h; obtain ⟨_, rfl⟩ := h)
          all_goals (refine ⟨?_, ?_, ?_⟩ <;> simp <;> omega)
        · simp only [hc1, if_false] at h
          split at h <;> (simp only [Option.some.injEq, Prod.mk.injEq] at h; obtain ⟨_, rfl⟩ := h)
          all_goals (refine ⟨?_, ?_, ?_⟩ <;> (try split) <;> simp <;> omega)
    · simp only [hc0, if_false] at h
      split at h <;> (simp only [Option.some.injEq, Prod.mk.injEq] at h; obtain ⟨_, rfl⟩ := h)
      all_goals (refine ⟨?_, ?_, ?_⟩ <;> (try split) <;> simp <;> omega)

theorem crlf_related_step (before rest : List Char) (c : Char) (ln : Int) (e : Bool)
    (hcr : '\r' ∉ before ++ c :: rest) (hnul : NUL ∉ before ++ c :: rest) (k : Nat)
    (hk : k = (to_crlf [c]).length) :
    crlf_related ⟨before ++ c :: rest, before.length + 1, ln, e⟩
      ⟨to_crlf (before ++ c :: rest), (to_crlf before).length + k, ln, e⟩ := by
  have h := crlf_related.inside (before ++ [c]) rest ln e (by simpa using hcr)
    (by simpa using hnul)
  have e1 : before ++ [c] ++ rest = before ++ c :: rest := by simp
  have e2 : (before ++ [c]).length = before.length + 1 := by simp
  have e3 : (to_crlf (before ++ [c])).length = (to_crlf before).length + k := by
    rw [to_crlf_append, List.length_append, hk]
  rw [e1, e2, e3] at h
  exact h

theorem cfg_getchar_raw_crlf (cfgL cfgC : Reader) (h : crlf_related cfgL cfgC) :
    crlf_related_result (cfg_getchar_raw cfgL) (cfg_getchar_raw cfgC) := by
  cases h with
  | past buf ln hcr hnul =>
    rw [cfg_getchar_raw_past, cfg_getchar_raw_past]
    trivial
  | inside before rest ln e hcr hnul =>
    cases rest with
    | nil =>
      rw [List.append_nil, cfg_getchar_raw_at_end, cfg_getchar_raw_at_end]
      exact ⟨rfl, crlf_related.past before ln (by simpa using hcr) (by simpa using hnul)⟩
    | cons c rest =>
      have hc : c ≠ '\r' := fun e1 => hcr (by simp [e1])
      have hn : c ≠ NUL := fun e1 => hnul (by simp [e1])
      rw [cfg_getchar_raw_at_char before rest c ln e hc hn, to_crlf_append]
      by_cases hl : c = '\n'
      · subst hl
        have e1 : to_crlf ('\n' :: rest) = '\r' :: '\n' :: to_crlf rest := rfl
        rw [e1, cfg_getchar_raw_at_crlf]
        refine ⟨rfl, ?_⟩
        have := crlf_related_step before rest '\n' (wrap_int (ln + 1)) e hcr hnul 2 rfl
        rw [to_crlf_append, e1] at this
        simpa using this
      · have e1 : to_crlf (c :: rest) = c :: to_crlf rest := by simp [to_crlf, hl]
        rw [e1, cfg_getchar_raw_at_char (to_crlf before) (to_crlf rest) c ln e hc hn]
        refine ⟨rfl, ?_⟩
        have := crlf_related_step before rest c ln e hcr hnul 1 (by simp [to_crlf, hl])
        rw [to_crlf_append, e1] at this
        simpa [hl] using this

theorem crlf_related_bound (cfgL cfgC : Reader) (h : crlf_related cfgL cfgC) :
    cfgL.read_ptr ≤ cfgL.buffer.length + 1 ∧ cfgC.read_ptr ≤ cfgC.buffer.length + 1 := by
  cases h with
  | past buf ln hcr hnul => simp
  | inside before rest ln e hcr hnul =>
    simp only [to_crlf_append, List.length_append]
    omega

theorem cfg_getchar_skip_space_crlf (sw : Bool) :
    ∀ (fuelL fuelC : Nat) (cfgL cfgC : Reader), crlf_related cfgL cfgC →
      cfgL.buffer.length + 2 - cfgL.read_ptr ≤ fuelL →
      cfgC.buffer.length + 2 - cfgC.read_ptr ≤ fuelC →
      crlf_related_result (cfg_getchar_skip_space sw fuelL cfgL)
        (cfg_getchar_skip_space sw fuelC cfgC) := by
  intro fuelL
  induction fuelL with
  | zero =>
    intro fuelC cfgL cfgC h hL _
    have := (crlf_related_bound cfgL cfgC h).1
    omega
  | succ k ih =>
    intro fuelC cfgL cfgC h hL hC
    have hb := crlf_related_bound cfgL cfgC h
    cases fuelC with
    | zero => omega
    | succ j =>
      have hr := cfg_getchar_raw_crlf cfgL cfgC h
      rw [cfg_getchar_skip_space, cfg_getchar_skip_space]
      cases hrl : cfg_getchar_raw cfgL with
      | none =>
        cases hrc : cfg_getchar_raw cfgC with
        | none => trivial
        | some rc => rw [hrl, hrc] at hr; exact absurd hr (by simp [crlf_related_result])
      | some rl =>
        cases hrc : cfg_getchar_raw cfgC with
        | none => rw [hrl, hrc] at hr; exact absurd hr (by simp [crlf_related_result])
        | some rc =>
          obtain ⟨c, cfgL1⟩ := rl
          obtain ⟨c1, cfgC1⟩ := rc
          rw [hrl, hrc] at hr
          obtain ⟨hcc, hrel⟩ := hr
          subst hcc
          have haL := cfg_getchar_raw_advance cfgL cfgL1 c hrl
          have haC := cfg_getchar_raw_advance cfgC cfgC1 c hrc
          simp only []
          by_cases hs : (sw && isspace c) = true
          · simp only [hs, if_true]
            apply ih j cfgL1 cfgC1 hrel
            · rw [haL.1]; omega
            · rw [haC.1]; omega
          · simp only [hs, if_false]
            exact ⟨rfl, hrel⟩

theorem cfg_getchar_skip_comment_crlf :
    ∀ (fuelL fuelC : Nat) (cfgL cfgC : Reader), crlf_related cfgL cfgC →
      cfgL.buffer.length + 2 - cfgL.read_ptr ≤ fuelL →
      cfgC.buffer.length + 2 - cfgC.read_ptr ≤ fuelC →
      crlf_related_result (cfg_getchar_skip_comment fuelL cfgL)
        (cfg_getchar_skip_comment fuelC cfgC) := by
  intro fuelL
  induction fuelL with
  | zero =>
    intro fuelC cfgL cfgC h hL _
    have := (crlf_related_bound cfgL cfgC h).1
    omega
  | succ k ih =>
    intro fuelC cfgL cfgC h hL hC
    have hb := crlf_related_bound cfgL cfgC h
    cases fuelC with
    | zero => omega
    | succ j =>
      have hr := cfg_getchar_raw_crlf cfgL cfgC h
      rw [cfg_getchar_skip_comment, cfg_getchar_skip_comment]
      cases hrl : cfg_getchar_raw cfgL with
      | none =>
        cases hrc : cfg_getchar_raw cfgC with
        | none => trivial
        | some rc => rw [hrl, hrc] at hr; exact absurd hr (by simp [crlf_related_result])
      | some rl =>
        cases hrc : cfg_getchar_raw cfgC with
        | none => rw [hrl, hrc] at hr; exact absurd hr (by simp [crlf_related_result])
        | some rc =>
          obtain ⟨c, cfgL1⟩ := rl
          obtain ⟨c1, cfgC1⟩ := rc
          rw [hrl, hrc] at hr
          obtain ⟨hcc, hrel⟩ := hr
          subst hcc
          have haL := cfg_getchar_raw_advance cfgL cfgL1 c hrl
          have haC := cfg_getchar_raw_advance cfgC cfgC1 c hrc
          simp only []
          by_cases hs : c ≠ '\n'
          · rw [if_pos hs, if_pos hs]
            apply ih j cfgL1 cfgC1 hrel
            · rw [haL.1]; omega
            · rw [haC.1]; omega
          · rw [if_neg hs, if_neg hs]
            exact ⟨rfl, hrel⟩

theorem cfg_getchar_skip_space_advance (sw : Bool) :
    ∀ (fuel : Nat) (cfg cfg1 : Reader) (c : Char),
      cfg_getchar_skip_space sw fuel cfg = some (c, cfg1) →
      cfg1.buffer = cfg.buffer ∧ cfg.read_ptr < cfg1.read_ptr ∧
        cfg1.read_ptr ≤ cfg.buffer.length + 1 := by
  intro fuel
  induction fuel with
  | zero => intro cfg cfg1 c h; simp [cfg_getchar_skip_space] at h
  | succ k ih =>
    intro cfg cfg1 c h
    rw [cfg_getchar_skip_space] at h
    cases hr : cfg_getchar_raw cfg with
    | none => rw [hr] at h; simp at h
    | some r =>
      obtain ⟨c0, cfg0⟩ := r
      have ha := cfg_getchar_raw_advance cfg cfg0 c0 hr
      rw [hr] at h
      simp only [] at h
      by_cases hs : (sw && isspace c0) = true
      · simp only [hs, if_true] at h
        have h2 := ih cfg0 cfg1 c h
        rw [ha.1] at h2
        exact ⟨h2.1, by omega, h2.2.2⟩
      · simp only [hs, if_false, Option.some.injEq, Prod.mk.injEq] at h
        obtain ⟨_, rfl⟩ := h
        exact ha

theorem cfg_getchar_skip_comment_advance :
    ∀ (fuel : Nat) (cfg cfg1 : Reader) (c : Char),
      cfg_getchar_skip_comment fuel cfg = some (c, cfg1) →
      cfg1.buffer = cfg.buffer ∧ cfg.read_ptr < cfg1.read_ptr ∧
        cfg1.read_ptr ≤ cfg.buffer.length + 1 := by
  intro fuel
  induction fuel with
  | zero => intro cfg cfg1 c h; simp [cfg_getchar_skip_comment] at h
  | succ k ih =>
    intro cfg cfg1 c h
    rw [cfg_getchar_skip_comment] at h
    cases hr : cfg_getchar_raw cfg with
    | none => rw [hr] at h; simp at h
    | some r =>
      obtain ⟨c0, cfg0⟩ := r
      have ha := cfg_getchar_raw_advance cfg cfg0 c0 hr
      rw [hr] at h
      simp only [] at h
      by_cases hs : c0 ≠ '\n'
      · rw [if_pos hs] at h
        have h2 := ih cfg0 cfg1 c h
        rw [ha.1] at h2
        exact ⟨h2.1, by omega, h2.2.2⟩
      · rw [if_neg hs] at h
        simp only [Option.some.injEq, Prod.mk.injEq] at h
        obtain ⟨_, rfl⟩ := h
        exact ha

/-- A successful `cfg_getchar` keeps the buffer, moves the read pointer
forward, and leaves it at most one position behind the terminating NUL. -/
theorem cfg_getchar_advance (cfg cfg1 : Reader) (flags : Nat) (c : Char)
    (h : cfg_getchar cfg flags = some (c, cfg1)) :
    cfg1.buffer = cfg.buffer ∧ cfg.read_ptr < cfg1.read_ptr ∧
      cfg1.read_ptr ≤ cfg.buffer.length + 1 := by
  unfold cfg_getchar at h
  simp only [] at h
  cases hs : cfg_getchar_skip_space (decide ((flags &&& SKIP_WHITESPACE) ≠ 0))
      (cfg.buffer.length + 2 - cfg.read_ptr) cfg with
  | none => rw [hs] at h; simp at h
  | some r =>
    obtain ⟨c0, cfg0⟩ := r
    have ha := cfg_getchar_skip_space_advance _ _ cfg cfg0 c0 hs
    rw [hs] at h
    simp only [] at h
    split at h
    · have h2 := cfg_getchar_skip_comment_advance _ cfg0 cfg1 c h
      rw [ha.1] at h2
      exact ⟨h2.1, by omega, h2.2.2⟩
    · simp only [Option.some.injEq, Prod.mk.injEq] at h
      obtain ⟨_, rfl⟩ := h
      exact ha

theorem cfg_getchar_crlf (cfgL cfgC : Reader) (flags : Nat) (h : crlf_related cfgL cfgC) :
    crlf_related_result (cfg_getchar cfgL flags) (cfg_getchar cfgC flags) := by
  unfold cfg_getchar
  simp only []
  have hs := cfg_getchar_skip_space_crlf (decide ((flags &&& SKIP_WHITESPACE) ≠ 0))
    (cfgL.buffer.length + 2 - cfgL.read_ptr) (cfgC.buffer.length + 2 - cfgC.read_ptr)
    cfgL cfgC h (Nat.le_refl _) (Nat.le_refl _)
  cases hl : cfg_getchar_skip_space (decide ((flags &&& SKIP_WHITESPACE) ≠ 0))
      (cfgL.buffer.length + 2 - cfgL.read_ptr) cfgL with
  | none =>
    cases hc : cfg_getchar_skip_space (decide ((flags &&& SKIP_WHITESPACE) ≠ 0))
        (cfgC.buffer.length + 2 - cfgC.read_ptr) cfgC with
    | none => trivial
    | some rc => rw [hl, hc] at hs; exact absurd hs (by simp [crlf_related_result])
  | some rl =>
    cases hc : cfg_getchar_skip_space (decide ((flags &&& SKIP_WHITESPACE) ≠ 0))
        (cfgC.buffer.length + 2 - cfgC.read_ptr) cfgC with
    | none => rw [hl, hc] at hs; exact absurd hs (by simp [crlf_related_result])
    | some rc =>
      obtain ⟨c, cfgL1⟩ := rl
      obtain ⟨c1, cfgC1⟩ := rc
      rw [hl, hc] at hs
      obtain ⟨hcc, hrel⟩ := hs
      subst hcc
      simp only []
      split
      · exact cfg_getchar_skip_comment_crlf _ _ cfgL1 cfgC1 hrel (Nat.le_refl _) (Nat.le_refl _)
      · exact ⟨rfl, hrel⟩

/-! ## Section headers on a buffer and on its CR LF form -/

theorem crlf_related_eof (cfgL cfgC : Reader) (h : crlf_related cfgL cfgC) :
    cfgC.eof = cfgL.eof := by
  cases h <;> rfl

theorem parse_section_header_loop_advance (env : Env)
    (hext : ∀ name cfg, env.parse_section_name_ext name cfg = none) (capacity : Nat) :
    ∀ (fuel : Nat) (name : List Char) (c : Char) (cfg cfg1 : Reader) (r : HeaderReturn),
      parse_section_header_loop env capacity fuel name c cfg = some (r, cfg1) →
      cfg1.buffer = cfg.buffer ∧ cfg.read_ptr ≤ cfg1.read_ptr := by
  intro fuel
  induction fuel with
  | zero => intro name c cfg cfg1 r h; simp [parse_section_header_loop] at h
  | succ k ih =>
    intro name c cfg cfg1 r h
    rw [parse_section_header_loop] at h
    split at h
    · simp only [Option.some.injEq, Prod.mk.injEq] at h
      obtain ⟨_, rfl⟩ := h
      exact ⟨rfl, Nat.le_refl _⟩
    · split at h
      · rw [hext] at h; simp at h
      · split at h
        · simp only [Option.some.injEq, Prod.mk.injEq] at h
          obtain ⟨_, rfl⟩ := h
          exact ⟨rfl, Nat.le_refl _⟩
        · split at h
          · simp at h
          · simp only [] at h
            cases hg : cfg_getchar cfg SKIP_COMMENTS with
            | none => rw [hg] at h; simp at h
            | some g =>
              obtain ⟨c1, cfg0⟩ := g
              have ha := cfg_getchar_advance cfg cfg0 SKIP_COMMENTS c1 hg
              rw [hg] at h
              simp only [] at h
              split at h
              · have h2 := ih _ c1 cfg0 cfg1 r h
                rw [ha.1] at h2
                exact ⟨h2.1, by omega⟩
              · split at h
                · simp at h
                · simp only [Option.some.injEq, Prod.mk.injEq] at h
                  obtain ⟨_, rfl⟩ := h
                  exact ⟨ha.1, by omega⟩

theorem parse_section_header_advance (env : Env)
    (hext : ∀ name cfg, env.parse_section_name_ext name cfg = none)
    (cfg cfg1 : Reader) (line : List Char) (r : HeaderReturn)
    (h : parse_section_header env cfg line = some (r, cfg1)) :
    cfg1.buffer = cfg.buffer ∧ cfg.read_ptr ≤ cfg1.read_ptr := by
  unfold parse_section_header at h
  split at h
  · simp only [Option.some.injEq, Prod.mk.injEq] at h
    obtain ⟨_, rfl⟩ := h
    exact ⟨rfl, Nat.le_refl _⟩
  · cases hg : cfg_getchar cfg (SKIP_WHITESPACE ||| SKIP_COMMENTS) with
    | none => rw [hg] at h; simp at h
    | some g =>
      obtain ⟨c1, cfg0⟩ := g
      have ha := cfg_getchar_advance cfg cfg0 _ c1 hg
      rw [hg] at h
      simp only [] at h
      have h2 := parse_section_header_loop_advance env hext _ _ _ c1 cfg0 cfg1 r h
      rw [ha.1] at h2
      exact ⟨h2.1, by omega⟩

theorem parse_section_header_loop_crlf (env : Env)
    (hext : ∀ name cfg, env.parse_section_name_ext name cfg = none) (capacity : Nat) :
    ∀ (fuelL fuelC : Nat) (name : List Char) (c : Char) (cfgL cfgC : Reader),
      crlf_related cfgL cfgC →
      cfgL.buffer.length + 2 - cfgL.read_ptr ≤ fuelL →
      cfgC.buffer.length + 2 - cfgC.read_ptr ≤ fuelC →
      crlf_related_result (parse_section_header_loop env capacity fuelL name c cfgL)
        (parse_section_header_loop env capacity fuelC name c cfgC) := by
  intro fuelL
  induction fuelL with
  | zero =>
    intro fuelC name c cfgL cfgC h hL _
    have := (crlf_related_bound cfgL cfgC h).1
    omega
  | succ k ih =>
    intro fuelC name c cfgL cfgC h hL hC
    have hb := crlf_related_bound cfgL cfgC h
    have heof := crlf_related_eof cfgL cfgC h
    cases fuelC with
    | zero => omega
    | succ j =>
      rw [parse_section_header_loop, parse_section_header_loop, heof]
      by_cases h1 : cfgL.eof = true
      · simp only [h1, if_true]
        exact ⟨rfl, h⟩
      · simp only [h1, if_false]
        by_cases h2 : isspace c = true
        · simp only [h2, if_true, hext, Option.map_none']
          trivial
        · simp only [h2, if_false]
          by_cases h3 : (!config_keychar c && decide (c ≠ '.')) = true
          · simp only [h3, if_true]
            exact ⟨rfl, h⟩
          · simp only [h3, if_false]
            by_cases h4 : capacity ≤ name.length
            · simp only [h4, if_true]
              trivial
            · simp only [h4, if_false]
              have hg := cfg_getchar_crlf cfgL cfgC SKIP_COMMENTS h
              cases hgl : cfg_getchar cfgL SKIP_COMMENTS with
              | none =>
                cases hgc : cfg_getchar cfgC SKIP_COMMENTS with
                | none => trivial
                | some rc =>
                  rw [hgl, hgc] at hg; exact absurd hg (by simp [crlf_related_result])
              | some rl =>
                cases hgc : cfg_getchar cfgC SKIP_COMMENTS with
                | none => rw [hgl, hgc] at hg; exact absurd hg (by simp [crlf_related_result])
                | some rc =>
                  obtain ⟨c1, cfgL1⟩ := rl
                  obtain ⟨c2, cfgC1⟩ := rc
                  rw [hgl, hgc] at hg
                  obtain ⟨hcc, hrel⟩ := hg
                  subst hcc
                  have haL := cfg_getchar_advance cfgL cfgL1 _ c1 hgl
                  have haC := cfg_getchar_advance cfgC cfgC1 _ c1 hgc
                  simp only []
                  by_cases h5 : c1 ≠ ']'
                  · rw [if_pos h5, if_pos h5]
                    apply ih j _ c1 cfgL1 cfgC1 hrel
                    · rw [haL.1]; omega
                    · rw [haC.1]; omega
                  · rw [if_neg h5, if_neg h5]
                    by_cases h6 : capacity ≤ (name ++ [tolower c]).length
                    · simp only [h6, if_true]
                      trivial
                    · simp only [h6, if_false]
                      exact ⟨rfl, hrel⟩

theorem parse_section_header_crlf (env : Env)
    (hext : ∀ name cfg, env.parse_section_name_ext name cfg = none)
    (cfgL cfgC : Reader) (lineL lineC : List Char) (h : crlf_related cfgL cfgC) :
    crlf_related_result (parse_section_header env cfgL lineL)
      (parse_section_header env cfgC lineC) := by
  unfold parse_section_header
  cases strchr env.name_start 0 ']' with
  | none => exact ⟨rfl, h⟩
  | some name_end =>
    simp only []
    have hg := cfg_getchar_crlf cfgL cfgC (SKIP_WHITESPACE ||| SKIP_COMMENTS) h
    cases hgl : cfg_getchar cfgL (SKIP_WHITESPACE ||| SKIP_COMMENTS) with
    | none =>
      cases hgc : cfg_getchar cfgC (SKIP_WHITESPACE ||| SKIP_COMMENTS) with
      | none => trivial
      | some rc => rw [hgl, hgc] at hg; exact absurd hg (by simp [crlf_related_result])
    | some rl =>
      cases hgc : cfg_getchar cfgC (SKIP_WHITESPACE ||| SKIP_COMMENTS) with
      | none => rw [hgl, hgc] at hg; exact absurd hg (by simp [crlf_related_result])
      | some rc =>
        obtain ⟨c1, cfgL1⟩ := rl
        obtain ⟨c2, cfgC1⟩ := rc
        rw [hgl, hgc] at hg
        obtain ⟨hcc, hrel⟩ := hg
        subst hcc
        have haL := cfg_getchar_advance cfgL cfgL1 _ c1 hgl
        have haC := cfg_getchar_advance cfgC cfgC1 _ c1 hgc
        simp only []
        apply parse_section_header_loop_crlf env hext _ _ _ _ c1 cfgL1 cfgC1 hrel
        · rw [haL.1]; omega
        · rw [haC.1]; omega

/-! ## `cfg_readline` on a buffer and on its CR LF form -/

theorem cfg_readline_crlf (n : Nat) (h4 : 4 ≤ n) (cfgL cfgC : Reader)
    (h : crlf_related cfgL cfgC) :
    crlf_related_result (cfg_readline n cfgL) (cfg_readline n cfgC) ∧
    (∀ line cfg1, cfg_readline n cfgL = some (line, cfg1) →
      cfg1.buffer = cfgL.buffer ∧ cfgL.read_ptr < cfg1.read_ptr ∧
        cfg1.read_ptr ≤ cfgL.buffer.length) ∧
    (∀ line cfg1, cfg_readline n cfgC = some (line, cfg1) →
      cfg1.buffer = cfgC.buffer ∧ cfgC.read_ptr < cfg1.read_ptr ∧
        cfg1.read_ptr ≤ cfgC.buffer.length) := by
  cases h with
  | past buf ln hcr hnul =>
    have hd : ∀ s : List Char, '\n' ∉ s.drop (s.length + 1) := by
      intro s
      rw [List.drop_eq_nil_of_le (by omega)]
      simp
    have hL := cfg_readline_eq_none n ⟨buf, buf.length + 1, ln, true⟩ (hd buf)
    have hC := cfg_readline_eq_none n ⟨to_crlf buf, (to_crlf buf).length + 1, ln, true⟩
      (hd (to_crlf buf))
    rw [hL, hC]
    exact ⟨trivial, by simp, by simp⟩
  | inside before rest ln e hcr hnul =>
    by_cases hmem : '\n' ∈ rest
    · obtain ⟨l, after, hsplit, hl⟩ := exists_first_split '\n' rest hmem
      subst hsplit
      have hnulA : after.head? ≠ some NUL := by
        intro hh
        apply hnul
        have : NUL ∈ after := List.mem_of_mem_head? hh
        simp [this]
      have hcrP : '\r' ∉ before ++ l := by
        intro hh
        apply hcr
        rw [← List.append_assoc]
        exact List.mem_append_left _ hh
      have hbufL : before ++ (l ++ '\n' :: after) = before ++ l ++ '\n' :: after := by
        simp
      have hbufC : to_crlf (before ++ l ++ '\n' :: after) =
          to_crlf before ++ (l ++ ['\r']) ++ '\n' :: to_crlf after := by
        rw [to_crlf_append, to_crlf_append, to_crlf_of_not_mem l hl]
        simp [to_crlf]
      have hL := cfg_readline_at_line n h4 before l after hl hnulA ln e
      have hC := cfg_readline_at_line n h4 (to_crlf before) (l ++ ['\r']) (to_crlf after)
        (by
          intro hh
          rcases List.mem_append.mp hh with e1 | e1
          · exact hl e1
          · simp at e1)
        (to_crlf_head_ne_nul after hnulA) ln e
      have hdec : linebreak_decided (to_crlf before ++ (l ++ ['\r'])) (to_crlf after) =
          linebreak_decided (before ++ l) after := by
        have := linebreak_decided_crlf (before ++ l) after hcrP
        rw [to_crlf_append, to_crlf_of_not_mem l hl, List.append_assoc] at this
        exact this
      rw [hbufL, hbufC, hL, hC, hdec]
      by_cases hd : linebreak_decided (before ++ l) after = true
      · simp only [hd, if_true, readline_line_crlf, to_crlf_isEmpty]
        have hrel := crlf_related.inside (before ++ l ++ ['\n']) after (wrap_int (ln + 1))
          (after.isEmpty || e) (by simpa using hcr) (by simpa using hnul)
        have e1 : to_crlf (before ++ l ++ ['\n'] ++ after) =
            to_crlf before ++ (l ++ ['\r']) ++ '\n' :: to_crlf after := by
          rw [← hbufC]; simp
        have e2 : (to_crlf (before ++ l ++ ['\n'])).length =
            (to_crlf before).length + (l ++ ['\r']).length + 1 := by
          rw [to_crlf_append, to_crlf_append, to_crlf_of_not_mem l hl]
          have e3 : to_crlf ['\n'] = ['\r', '\n'] := rfl
          simp only [e3, List.length_append, List.length_cons, List.length_nil]
          omega
        have e4 : before ++ l ++ ['\n'] ++ after = before ++ l ++ '\n' :: after := by simp
        have e5 : (before ++ l ++ ['\n']).length = before.length + l.length + 1 := by
          simp only [List.length_append, List.length_singleton]
        rw [e1, e2, e4, e5] at hrel
        refine ⟨⟨rfl, hrel⟩, ?_, ?_⟩
        · intro line cfg1 hh
          simp only [Option.some.injEq, Prod.mk.injEq] at hh
          obtain ⟨_, rfl⟩ := hh
          simp only [List.length_append, List.length_cons]
          refine ⟨trivial, ?_, ?_⟩ <;> omega
        · intro line cfg1 hh
          simp only [Option.some.injEq, Prod.mk.injEq] at hh
          obtain ⟨_, rfl⟩ := hh
          simp only [List.length_append, List.length_cons]
          refine ⟨trivial, ?_, ?_⟩ <;> omega
      · simp only [hd, if_false]
        exact ⟨trivial, by simp, by simp⟩
    · have hLn := cfg_readline_eq_none n ⟨before ++ rest, before.length, ln, e⟩
        (by simpa using hmem)
      have hCn := cfg_readline_eq_none n
        ⟨to_crlf (before ++ rest), (to_crlf before).length, ln, e⟩
        (by
          rw [to_crlf_append, to_crlf_of_not_mem rest hmem]
          simpa using hmem)
      rw [hLn, hCn]
      exact ⟨trivial, by simp, by simp⟩

/-! ## `config_parse` on a buffer and on its CR LF form -/

theorem config_parse_loop_crlf (env : Env) (h4 : 4 ≤ env.ptrSize)
    (hext : ∀ name cfg, env.parse_section_name_ext name cfg = none) :
    ∀ (fuelL fuelC : Nat) (error : Int) (cfgL cfgC : Reader), crlf_related cfgL cfgC →
      cfgL.buffer.length + 1 - cfgL.read_ptr < fuelL →
      cfgC.buffer.length + 1 - cfgC.read_ptr < fuelC →
      crlf_related_result (config_parse_loop env fuelL error cfgL)
        (config_parse_loop env fuelC error cfgC) := by
  intro fuelL
  induction fuelL with
  | zero => intro fuelC error cfgL cfgC _ hL _; omega
  | succ k ih =>
    intro fuelC error cfgL cfgC h hL hC
    have heof := crlf_related_eof cfgL cfgC h
    cases fuelC with
    | zero => omega
    | succ j =>
      rw [config_parse_loop, config_parse_loop, heof]
      by_cases hcond : error = GIT_SUCCESS ∧ cfgL.eof = false
      · rw [if_pos hcond, if_pos hcond]
        obtain ⟨hr, pL, pC⟩ := cfg_readline_crlf env.ptrSize h4 cfgL cfgC h
        cases hrl : cfg_readline env.ptrSize cfgL with
        | none =>
          cases hrc : cfg_readline env.ptrSize cfgC with
          | none => trivial
          | some rc => rw [hrl, hrc] at hr; exact absurd hr (by simp [crlf_related_result])
        | some rl =>
          cases hrc : cfg_readline env.ptrSize cfgC with
          | none => rw [hrl, hrc] at hr; exact absurd hr (by simp [crlf_related_result])
          | some rc =>
            obtain ⟨line, cfgL1⟩ := rl
            obtain ⟨line1, cfgC1⟩ := rc
            rw [hrl, hrc] at hr
            obtain ⟨hll, hrel⟩ := hr
            subst hll
            have qL := pL line cfgL1 hrl
            have qC := pC line cfgC1 hrc
            have fL : cfgL1.buffer.length + 1 - cfgL1.read_ptr < k := by
              rw [qL.1]; omega
            have fC : cfgC1.buffer.length + 1 - cfgC1.read_ptr < j := by
              rw [qC.1]; omega
            simp only []
            cases hsl : strip_comments line with
            | nil => exact ih j error cfgL1 cfgC1 hrel fL fC
            | cons c rest =>
              simp only []
              by_cases hb : c = '['
              · rw [if_pos hb, if_pos hb]
                have hh := parse_section_header_crlf env hext cfgL1 cfgC1 (c :: rest) (c :: rest)
                  hrel
                cases hpl : parse_section_header env cfgL1 (c :: rest) with
                | none =>
                  cases hpc : parse_section_header env cfgC1 (c :: rest) with
                  | none => trivial
                  | some rc =>
                    rw [hpl, hpc] at hh; exact absurd hh (by simp [crlf_related_result])
                | some rl =>
                  cases hpc : parse_section_header env cfgC1 (c :: rest) with
                  | none =>
                    rw [hpl, hpc] at hh; exact absurd hh (by simp [crlf_related_result])
                  | some rc =>
                    obtain ⟨r, cfgL2⟩ := rl
                    obtain ⟨r1, cfgC2⟩ := rc
                    rw [hpl, hpc] at hh
                    obtain ⟨hrr, hrel2⟩ := hh
                    subst hrr
                    have aL := parse_section_header_advance env hext cfgL1 cfgL2 _ r hpl
                    have aC := parse_section_header_advance env hext cfgC1 cfgC2 _ r hpc
                    simp only []
                    apply ih j _ cfgL2 cfgC2 hrel2
                    · rw [aL.1]; omega
                    · rw [aC.1]; omega
              · rw [if_neg hb, if_neg hb]
                have hv : parse_variable cfgC1 none (c :: rest) =
                    parse_variable cfgL1 none (c :: rest) := rfl
                rw [hv]
                exact ih j _ cfgL1 cfgC1 hrel fL fC
      · rw [if_neg hcond, if_neg hcond]
        exact ⟨rfl, h⟩

theorem memcmp_bom_mismatch (s : List Char) (n k : Nat) (x y : Char) (hk : k < n)
    (hx : byte_at s (k : Int) = some x) (hy : byte_at utf8_bom (k : Int) = some y)
    (hxy : x ≠ y) : memcmp_eq s ((0 : Nat) : Int) utf8_bom n = some false := by
  rw [memcmp_eq_false_iff]
  refine ⟨k, hk, x, y, ?_, hy, hxy⟩
  have e : ((0 : Nat) : Int) + (k : Int) = (k : Int) := by simp
  rw [e]; exact hx

theorem memcmp_bom_false (n : Nat) (h4 : 4 ≤ n) (s : List Char) (hnul : NUL ∉ s)
    (hne : s ≠ utf8_bom) : memcmp_eq s ((0 : Nat) : Int) utf8_bom n = some false := by
  have b0 : byte_at utf8_bom ((0 : Nat) : Int) = some (Char.ofNat 0xEF) := by
    rw [byte_at_cast]; simp [utf8_bom]
  have b1 : byte_at utf8_bom ((1 : Nat) : Int) = some (Char.ofNat 0xBB) := by
    rw [byte_at_cast]; simp [utf8_bom]
  have b2 : byte_at utf8_bom ((2 : Nat) : Int) = some (Char.ofNat 0xBF) := by
    rw [byte_at_cast]; simp [utf8_bom]
  have b3 : byte_at utf8_bom ((3 : Nat) : Int) = some NUL := by
    rw [byte_at_cast]; simp [utf8_bom]
  have n0 : NUL ≠ Char.ofNat 0xEF := by decide
  have n1 : NUL ≠ Char.ofNat 0xBB := by decide
  have n2 : NUL ≠ Char.ofNat 0xBF := by decide
  cases s with
  | nil =>
    exact memcmp_bom_mismatch [] n 0 NUL _ (by omega) (by rw [byte_at_cast]; simp) b0 n0
  | cons a s1 =>
    by_cases ha : a = Char.ofNat 0xEF
    · cases s1 with
      | nil =>
        exact memcmp_bom_mismatch [a] n 1 NUL _ (by omega) (by rw [byte_at_cast]; simp) b1 n1
      | cons b s2 =>
        by_cases hb : b = Char.ofNat 0xBB
        · cases s2 with
          | nil =>
            exact memcmp_bom_mismatch [a, b] n 2 NUL _ (by omega)
              (by rw [byte_at_cast]; simp) b2 n2
          | cons c s3 =>
            by_cases hc : c = Char.ofNat 0xBF
            · cases s3 with
              | nil =>
                exfalso
                apply hne
                rw [ha, hb, hc]
                rfl
              | cons d s4 =>
                have hd : d ≠ NUL := fun e => hnul (by simp [e])
                exact memcmp_bom_mismatch (a :: b :: c :: d :: s4) n 3 d _ (by omega)
                  (by rw [byte_at_cast]; simp) b3 hd
            · exact memcmp_bom_mismatch (a :: b :: c :: s3) n 2 c _ (by omega)
                (by rw [byte_at_cast]; simp) b2 hc
        · exact memcmp_bom_mismatch (a :: b :: s2) n 1 b _ (by omega)
            (by rw [byte_at_cast]; simp) b1 hb
    · exact memcmp_bom_mismatch (a :: s1) n 0 a _ (by omega)
        (by rw [byte_at_cast]; simp) b0 ha

theorem mem_to_crlf (s : List Char) (x : Char) (h : x ∈ to_crlf s) : x ∈ s ∨ x = '\r' := by
  induction s with
  | nil => simp [to_crlf] at h
  | cons c s ih =>
    by_cases hc : c = '\n'
    · simp only [to_crlf, hc, if_true, List.mem_cons] at h
      rcases h with e | e | e
      · right; exact e
      · left; simp [hc, e]
      · rcases ih e with e1 | e1
        · left; simp [e1]
        · right; exact e1
    · simp only [to_crlf, hc, if_false, List.mem_cons] at h
      rcases h with e | e
      · left; simp [e]
      · rcases ih e with e1 | e1
        · left; simp [e1]
        · right; exact e1

theorem cr_mem_to_crlf (s : List Char) (h : '\n' ∈ s) : '\r' ∈ to_crlf s := by
  induction s with
  | nil => simp at h
  | cons c s ih =>
    by_cases hc : c = '\n'
    · simp [to_crlf, hc]
    · have hs : '\n' ∈ s := by
        rcases List.mem_cons.mp h with e | e
        · exact absurd e.symm hc
        · exact e
      simp [to_crlf, hc, ih hs]

theorem to_crlf_eq_bom (s : List Char) (h : to_crlf s = utf8_bom) : s = utf8_bom := by
  by_cases hn : '\n' ∈ s
  · have := cr_mem_to_crlf s hn
    rw [h] at this
    exact absurd this (by decide)
  · rw [to_crlf_of_not_mem s hn] at h
    exact h

/-- For pointers of at least 4 bytes, and when calls of the function that
the sources do not define have no defined result, `config_parse` gives the
same status on a buffer without CR and NUL and on its CR LF form, or has
no defined result on either. -/
theorem config_parse_crlf (env : Env) (h4 : 4 ≤ env.ptrSize)
    (hext : ∀ name cfg, env.parse_section_name_ext name cfg = none) (buf : List Char)
    (hcr : '\r' ∉ buf) (hnul : NUL ∉ buf) :
    (config_parse env (Reader.start (to_crlf buf))).map Prod.fst =
      (config_parse env (Reader.start buf)).map Prod.fst := by
  by_cases hb : buf = utf8_bom
  · subst hb
    rfl
  · have hnulC : NUL ∉ to_crlf buf := by
      intro hh
      rcases mem_to_crlf buf NUL hh with e | e
      · exact hnul e
      · exact absurd e (by decide)
    have hbC : to_crlf buf ≠ utf8_bom := fun e => hb (to_crlf_eq_bom buf e)
    have mL := memcmp_bom_false env.ptrSize h4 buf hnul hb
    have mC := memcmp_bom_false env.ptrSize h4 (to_crlf buf) hnulC hbC
    have hrel := crlf_related.inside [] buf 0 false (by simpa using hcr) (by simpa using hnul)
    simp only [List.nil_append, List.length_nil, to_crlf] at hrel
    have hloop := config_parse_loop_crlf env h4 hext (buf.length + 2)
      ((to_crlf buf).length + 2) GIT_SUCCESS _ _ hrel (by simp) (by simp)
    unfold config_parse skip_bom
    simp only [Reader.start] at mL mC ⊢
    rw [mL, mC]
    simp only []
    cases hl : config_parse_loop env (buf.length + 2) GIT_SUCCESS ⟨buf, 0, 0, false⟩ with
    | none =>
      cases hc : config_parse_loop env ((to_crlf buf).length + 2) GIT_SUCCESS
          ⟨to_crlf buf, 0, 0, false⟩ with
      | none => rfl
      | some rc => rw [hl, hc] at hloop; exact absurd hloop (by simp [crlf_related_result])
    | some rl =>
      cases hc : config_parse_loop env ((to_crlf buf).length + 2) GIT_SUCCESS
          ⟨to_crlf buf, 0, 0, false⟩ with
      | none => rw [hl, hc] at hloop; exact absurd hloop (by simp [crlf_related_result])
      | some rc =>
        obtain ⟨a, cL⟩ := rl
        obtain ⟨b, cC⟩ := rc
        rw [hl, hc] at hloop
        simp [hloop.1]

/-- C8: the buffer with every LF replaced by CR LF is not read like the
buffer itself at the end of a buffer that ends in backslash LF.  With
pointers of 4 bytes, on `a`, backslash, CR, LF the second comparison of
`is_linebreak` covers backslash, CR, LF and the terminating NUL, which are
the four bytes of the literal `LINEBREAK_WIN32`: the answer is "yes",
`strchr` then returns the null pointer and `is_linebreak` reads through
it.  On `a`, backslash, LF the first comparison agrees on three bytes and
then compares the byte behind the terminating NUL with the byte behind the
literal `LINEBREAK_UNIX`: the answer is not determined by the buffer.
Wherever the results are determined by the buffers they agree, for
pointers of at least 4 bytes and buffers without CR (and without NUL in
their text): the sequences of lines are equal, both are defined and equal
when the buffer ends in an LF that follows a character other than a
backslash, and `config_parse` returns the same status, when calls of the
function that the sources do not define have no defined result. -/
theorem read_all_lines_crlf (n : Nat) (h4 : 4 ≤ n) (buf : List Char)
    (hcr : '\r' ∉ buf) (hnul : NUL ∉ buf) :
    (to_crlf "a\\\n".toList = "a\\\r\n".toList ∧
      is_linebreak 4 "a\\\r\n".toList (some 3) = some true ∧
      strchr "a\\\r\n".toList 4 '\n' = none ∧
      is_linebreak 4 "a\\\r\n".toList none = none ∧
      cfg_readline 4 (Reader.start "a\\\r\n".toList) = none) ∧
    (memcmp_eq "a\\\n".toList 1 LINEBREAK_UNIX 3 = some true ∧
      byte_at "a\\\n".toList 4 = none ∧ byte_at LINEBREAK_UNIX 3 = none ∧
      is_linebreak 4 "a\\\n".toList (some 2) = none ∧
      cfg_readline 4 (Reader.start "a\\\n".toList) = none) ∧
    read_all_lines n (to_crlf buf) = read_all_lines n buf ∧
    (∀ body c, buf = body ++ [c] ++ ['\n'] → c ≠ '\\' →
      ∃ lines, read_all_lines n buf = some lines ∧
        read_all_lines n (to_crlf buf) = some lines) ∧
    (∀ env : Env, env.ptrSize = n →
      (∀ name cfg, env.parse_section_name_ext name cfg = none) →
      (config_parse env (Reader.start (to_crlf buf))).map Prod.fst =
        (config_parse env (Reader.start buf)).map Prod.fst) := by
  have heq := read_all_lines_crlf_eq n h4 buf hcr hnul
  refine ⟨by decide, by decide, heq, ?_, ?_⟩
  · intro body c hb hc
    have hcc : c ≠ '\r' := by
      intro e1; apply hcr; rw [hb, e1]; simp
    have hdec : linebreak_decided ([] ++ (body ++ [c])) [] = true := by
      simp [linebreak_decided, differs, hc, hcc]
    have h := read_lines_defined n h4 (buf.length + 1) [] (body ++ [c]) 0 false
      (fun hh => hnul (by rw [hb]; exact List.mem_append_left _ hh))
      (by rw [hb]; simp)
      hdec
    simp only [List.nil_append, List.length_nil] at h
    rw [← hb] at h
    have h' : (read_all_lines n buf).isSome = true := h
    obtain ⟨lines, hl⟩ := Option.isSome_iff_exists.mp h'
    exact ⟨lines, hl, by rw [heq, hl]⟩
  · intro env hn hext
    exact config_parse_crlf env (by omega) hext buf hcr hnul

/-- Witness for C8: the buffer `[core]` LF TAB `bare = true` LF, with
pointers of 8 bytes, reads as the lines `[core]` and `bare = true` with
either kind of line end, and `config_parse` returns `GIT_SUCCESS` for it
when no `]` follows `name_start`. -/
theorem read_all_lines_crlf_witness :
    '\r' ∉ "[core]\n\tbare = true\n".toList ∧ NUL ∉ "[core]\n\tbare = true\n".toList ∧
    read_all_lines 8 "[core]\n\tbare = true\n".toList =
      some ["[core]".toList, "bare = true".toList] ∧
    (config_parse ⟨8, [], 1, fun _ _ => none⟩
      (Reader.start "[core]\n\tbare = true\n".toList)).map Prod.fst = some GIT_SUCCESS ∧
    read_all_lines 8 (to_crlf "[core]\n\tbare = true\n".toList) =
      read_all_lines 8 "[core]\n\tbare = true\n".toList ∧
    (config_parse ⟨8, [], 1, fun _ _ => none⟩
      (Reader.start (to_crlf "[core]\n\tbare = true\n".toList))).map Prod.fst =
      (config_parse ⟨8, [], 1, fun _ _ => none⟩
        (Reader.start "[core]\n\tbare = true\n".toList)).map Prod.fst :=
  ⟨by decide, by decide, by decide, by rfl,
   (read_all_lines_crlf 8 (by decide) "[core]\n\tbare = true\n".toList (by decide)
      (by decide)).2.2.1,
   (read_all_lines_crlf 8 (by decide) "[core]\n\tbare = true\n".toList (by decide)
      (by decide)).2.2.2.2 ⟨8, [], 1, fun _ _ => none⟩ rfl (fun _ _ => rfl)⟩

/-! ## More on the comment stripper -/

theorem strip_comments_loop_initial (s : List Char) :
    ∀ (prev : Option Char) (qc : Nat), strip_comments_loop prev qc s <+: s := by
  induction s with
  | nil => intro prev qc; simp [strip_comments_loop]
  | cons c rest ih =>
    intro prev qc
    by_cases hcut : (c = ';' ∨ c = '#') ∧
        (if c = '"' ∧ prev.isSome ∧ prev ≠ some '\\' then qc + 1 else qc) % 2 = 0
    · rw [strip_comments_loop, if_pos hcut]
      exact List.nil_prefix
    · rw [strip_comments_loop, if_neg hcut]
      exact (List.prefix_cons_inj c).mpr (ih _ _)

theorem strip_comments_loop_idem (s : List Char) :
    ∀ (prev : Option Char) (qc : Nat),
      strip_comments_loop prev qc (strip_comments_loop prev qc s) =
        strip_comments_loop prev qc s := by
  induction s with
  | nil => intro prev qc; simp [strip_comments_loop]
  | cons c rest ih =>
    intro prev qc
    by_cases hcut : (c = ';' ∨ c = '#') ∧
        (if c = '"' ∧ prev.isSome ∧ prev ≠ some '\\' then qc + 1 else qc) % 2 = 0
    · have h1 : strip_comments_loop prev qc (c :: rest) = [] := by
        rw [strip_comments_loop, if_pos hcut]
      rw [h1]; simp [strip_comments_loop]
    · have h1 : strip_comments_loop prev qc (c :: rest) =
          c :: strip_comments_loop (some c)
            (if c = '"' ∧ prev.isSome ∧ prev ≠ some '\\' then qc + 1 else qc) rest := by
        rw [strip_comments_loop, if_neg hcut]
      rw [h1]
      rw [strip_comments_loop, if_neg hcut, ih]

/-- C20: the output of `strip_comments` is a prefix of its input, and
`strip_comments` applied to its own output returns that output. -/
theorem strip_comments_prefix_idempotent (line : List Char) :
    strip_comments line <+: line ∧
    strip_comments (strip_comments line) = strip_comments line :=
  ⟨strip_comments_loop_initial line none 0, strip_comments_loop_idem line none 0⟩

theorem last_or_cons (prev : Option Char) (c : Char) (a : List Char) :
    last_or prev (c :: a) = last_or (some c) a := by
  cases a with
  | nil => simp [last_or]
  | cons x a =>
    have h : (x :: a).getLast? = some ((x :: a).getLast (by simp)) :=
      List.getLast?_eq_getLast _ (by simp)
    simp only [last_or, List.getLast?_cons_cons, h]

theorem last_or_mem (prev : Option Char) (a : List Char) (x : Char)
    (h : last_or prev a = some x) : x ∈ a ∨ prev = some x := by
  unfold last_or at h
  cases hl : a.getLast? with
  | none => rw [hl] at h; right; exact h
  | some y =>
    rw [hl] at h
    simp only [Option.some.injEq] at h
    left
    rw [← h]
    exact List.mem_of_getLast?_eq_some hl

theorem strip_comments_loop_segment (a b : List Char) :
    ∀ (prev : Option Char) (qc : Nat),
      (∀ c ∈ a, c ≠ '"' ∧ (qc % 2 = 1 ∨ (c ≠ ';' ∧ c ≠ '#'))) →
      strip_comments_loop prev qc (a ++ b) = a ++ strip_comments_loop (last_or prev a) qc b := by
  induction a with
  | nil => intro prev qc _; simp [last_or]
  | cons c a ih =>
    intro prev qc h
    have hc := h c (by simp)
    have hq : ¬ (c = '"' ∧ prev.isSome ∧ prev ≠ some '\\') := fun e => hc.1 e.1
    have hcut : ¬ ((c = ';' ∨ c = '#') ∧ qc % 2 = 0) := by
      rintro ⟨h1, h2⟩
      rcases hc.2 with e | e
      · omega
      · rcases h1 with e1 | e1
        · exact e.1 e1
        · exact e.2 e1
    rw [List.cons_append, strip_comments_loop, if_neg hq, if_neg hcut,
      ih (some c) qc (fun x hx => h x (by simp [hx])), last_or_cons, List.cons_append]

/-- C12: for every line `name = "v"` in which `name` holds no double
quote, `;` or `#` and `v` holds no double quote and no backslash,
`strip_comments` returns the line unchanged, whatever `;` and `#` the
value `v` holds. -/
theorem strip_comments_keeps_quoted_value (name v : List Char)
    (hname : ∀ c ∈ name, c ≠ '"' ∧ c ≠ ';' ∧ c ≠ '#')
    (hv : ∀ c ∈ v, c ≠ '"' ∧ c ≠ '\\') :
    strip_comments (name ++ [' ', '=', ' '] ++ '"' :: (v ++ ['"'])) =
      name ++ [' ', '=', ' '] ++ '"' :: (v ++ ['"']) := by
  have h1 : ∀ c ∈ name ++ [' ', '=', ' '], c ≠ '"' ∧ (0 % 2 = 1 ∨ (c ≠ ';' ∧ c ≠ '#')) := by
    intro c hc
    rcases List.mem_append.mp hc with e | e
    · exact ⟨(hname c e).1, Or.inr (hname c e).2⟩
    · simp only [List.mem_cons, List.mem_singleton, List.not_mem_nil, or_false] at e
      rcases e with e | e | e <;> subst e <;> exact ⟨by decide, Or.inr (by decide)⟩
  have hp1 : last_or none (name ++ [' ', '=', ' ']) = some ' ' := by
    simp [last_or, List.getLast?_append]
  have h2 : ∀ c ∈ v, c ≠ '"' ∧ (1 % 2 = 1 ∨ (c ≠ ';' ∧ c ≠ '#')) :=
    fun c hc => ⟨(hv c hc).1, Or.inl rfl⟩
  have hp2 : ¬ ('"' = '"' ∧ (last_or (some '"') v).isSome ∧
      last_or (some '"') v ≠ some '\\') → False := by
    intro hneg
    apply hneg
    refine ⟨rfl, ?_, ?_⟩
    · unfold last_or; cases v.getLast? <;> simp
    · intro e
      rcases last_or_mem _ _ _ e with e1 | e1
      · exact (hv _ e1).2 rfl
      · simp at e1
  have hq1 : ('"' : Char) = '"' ∧ (some ' ' : Option Char).isSome ∧
      (some ' ' : Option Char) ≠ some '\\' := ⟨rfl, rfl, by decide⟩
  have hn1 : ¬ ((('"' : Char) = ';' ∨ ('"' : Char) = '#') ∧ (0 + 1) % 2 = 0) := by decide
  have hq2 : ('"' : Char) = '"' ∧ (last_or (some '"') v).isSome ∧
      last_or (some '"') v ≠ some '\\' := by
    by_contra hneg
    exact hp2 hneg
  have hn2 : ¬ ((('"' : Char) = ';' ∨ ('"' : Char) = '#') ∧ (1 + 1) % 2 = 0) := by decide
  unfold strip_comments
  rw [strip_comments_loop_segment _ _ none 0 h1, hp1, strip_comments_loop, if_pos hq1,
    if_neg hn1, strip_comments_loop_segment v ['"'] (some '"') (0 + 1) h2, strip_comments_loop,
    if_pos hq2, if_neg hn2, strip_comments_loop]

/-- Witness for C12: the line `key = "a;b"` is returned unchanged. -/
theorem strip_comments_keeps_quoted_value_witness :
    strip_comments "key = \"a;b\"".toList = "key = \"a;b\"".toList :=
  strip_comments_keeps_quoted_value "key".toList "a;b".toList (by decide) (by decide)

/-! ## `cfg_getchar_raw` at the four kinds of byte -/

theorem cfg_getchar_raw_at_cr (before rest : List Char) (ln : Int) (e : Bool)
    (h : rest.head? ≠ some '\n') :
    cfg_getchar_raw ⟨before ++ '\r' :: rest, before.length, ln, e⟩ =
      some ('\r', ⟨before ++ '\r' :: rest, before.length + 1, ln, e⟩) := by
  have hb := byte_at_here before rest '\r'
  have hb2 := byte_at_next before rest '\r'
  have e1 : (((before.length + 1 : Nat)) : Int) = (before.length : Int) + 1 := by simp
  have h2 : rest.headD NUL ≠ '\n' := by
    cases rest with
    | nil => simp [NUL]
    | cons x rest => simpa using h
  have h3 : ('\r' : Char) ≠ '\n' := by decide
  have h4 : ('\r' : Char) ≠ NUL := by decide
  unfold cfg_getchar_raw
  simp only [hb, e1, hb2, if_true, h2, if_false, h3, h4]

/-- C18 (as amended): `cfg_getchar_raw` at CR LF consumes both bytes,
returns LF and increments the line number once, as an `int`; at an LF it
consumes one byte, returns LF and increments the line number once, as an
`int`; at the terminating NUL it returns LF, sets the end-of-input flag
and keeps the line number; at any other byte `c` (a CR only when no LF
follows it) it consumes the byte, returns `c` and keeps the line number
and the flag.  The increment adds exactly one to a line number below
`INT_MAX`, and it turns `INT_MAX` into `INT_MIN`. -/
theorem cfg_getchar_raw_line_ends (before rest : List Char) (ln : Int) (e : Bool) :
    cfg_getchar_raw ⟨before ++ '\r' :: '\n' :: rest, before.length, ln, e⟩ =
      some ('\n', ⟨before ++ '\r' :: '\n' :: rest, before.length + 2, wrap_int (ln + 1), e⟩) ∧
    cfg_getchar_raw ⟨before ++ '\n' :: rest, before.length, ln, e⟩ =
      some ('\n', ⟨before ++ '\n' :: rest, before.length + 1, wrap_int (ln + 1), e⟩) ∧
    cfg_getchar_raw ⟨before, before.length, ln, e⟩ =
      some ('\n', ⟨before, before.length + 1, ln, true⟩) ∧
    (∀ c : Char, c ≠ '\n' → c ≠ NUL → (c = '\r' → rest.head? ≠ some '\n') →
      cfg_getchar_raw ⟨before ++ c :: rest, before.length, ln, e⟩ =
        some (c, ⟨before ++ c :: rest, before.length + 1, ln, e⟩)) ∧
    (-2147483648 ≤ ln → ln < 2147483647 → wrap_int (ln + 1) = ln + 1) ∧
    wrap_int (2147483647 + 1) = -2147483648 := by
  refine ⟨cfg_getchar_raw_at_crlf before rest ln e, ?_, cfg_getchar_raw_at_end before ln e, ?_,
    fun hlo hhi => wrap_int_of_range (ln + 1) (by omega) (by omega), wrap_int_max⟩
  · have h := cfg_getchar_raw_at_char before rest '\n' ln e (by decide) (by decide)
    simpa using h
  · intro c hn hz hcr
    by_cases hc : c = '\r'
    · subst hc
      exact cfg_getchar_raw_at_cr before rest ln e (hcr rfl)
    · have h := cfg_getchar_raw_at_char before rest c ln e hc hz
      simpa [hn] using h

/-- Witness for C18: the four cases in the buffers `a` CR LF `b`, `a` LF `b`,
`a` and `a` CR `b`, read at offset 1, at line 7: the line number becomes 8
at the two line ends and stays 7 otherwise. -/
theorem cfg_getchar_raw_line_ends_witness :
    cfg_getchar_raw ⟨"a\r\nb".toList, 1, 7, false⟩ =
      some ('\n', ⟨"a\r\nb".toList, 3, 8, false⟩) ∧
    cfg_getchar_raw ⟨"a\nb".toList, 1, 7, false⟩ = some ('\n', ⟨"a\nb".toList, 2, 8, false⟩) ∧
    cfg_getchar_raw ⟨"a".toList, 1, 7, false⟩ = some ('\n', ⟨"a".toList, 2, 7, true⟩) ∧
    cfg_getchar_raw ⟨"a\rb".toList, 1, 7, false⟩ = some ('\r', ⟨"a\rb".toList, 2, 7, false⟩) ∧
    wrap_int (7 + 1) = 7 + 1 :=
  ⟨(cfg_getchar_raw_line_ends "a".toList "b".toList 7 false).1,
   (cfg_getchar_raw_line_ends "a".toList "b".toList 7 false).2.1,
   (cfg_getchar_raw_line_ends "a".toList "b".toList 7 false).2.2.1,
   (cfg_getchar_raw_line_ends "a".toList "b".toList 7 false).2.2.2.1 '\r' (by decide) (by decide)
     (fun _ => by decide),
   (cfg_getchar_raw_line_ends "a".toList "b".toList 7 false).2.2.2.2.1 (by decide) (by decide)⟩

/-- C18 (as stated) fails: the line number is an `int`, and at the line
number `INT_MAX` = 2147483647 the increment at an LF and at CR LF does not
add one: the line number after the call is `INT_MIN` = -2147483648. -/
theorem cfg_getchar_raw_line_number_overflow :
    cfg_getchar_raw ⟨['\n'], 0, 2147483647, false⟩ =
      some ('\n', ⟨['\n'], 1, -2147483648, false⟩) ∧
    cfg_getchar_raw ⟨['\r', '\n'], 0, 2147483647, false⟩ =
      some ('\n', ⟨['\r', '\n'], 2, -2147483648, false⟩) ∧
    (-2147483648 : Int) ≠ 2147483647 + 1 := by
  decide

/-! ## `cfg_getchar` with `SKIP_WHITESPACE` at the end of the buffer -/

theorem cfg_getchar_skip_space_past (fuel : Nat) (buf : List Char) (ln : Int) (e : Bool) :
    cfg_getchar_skip_space true fuel ⟨buf, buf.length + 1, ln, e⟩ = none := by
  cases fuel with
  | zero => rfl
  | succ k => rw [cfg_getchar_skip_space, cfg_getchar_raw_past]

theorem cfg_getchar_skip_space_blank :
    ∀ (fuel : Nat) (before rest : List Char) (ln : Int) (e : Bool),
      (∀ c ∈ rest, isspace c = true) →
      cfg_getchar_skip_space true fuel ⟨before ++ rest, before.length, ln, e⟩ = none := by
  intro fuel
  induction fuel with
  | zero => intro before rest ln e _; rfl
  | succ k ih =>
    intro before rest ln e hw
    cases rest with
    | nil =>
      rw [List.append_nil, cfg_getchar_skip_space, cfg_getchar_raw_at_end]
      simp only [Bool.true_and]
      have hs : isspace '\n' = true := by decide
      rw [if_pos hs]
      exact cfg_getchar_skip_space_past k before ln true
    | cons c rest =>
      have hc : isspace c = true := hw c (by simp)
      have hn : c ≠ NUL := by
        intro e1; rw [e1] at hc; exact absurd hc (by decide)
      have hrest : ∀ x ∈ rest, isspace x = true := fun x hx => hw x (by simp [hx])
      by_cases hcr : c = '\r'
      · subst hcr
        by_cases hnl : rest.head? = some '\n'
        · cases rest with
          | nil => simp at hnl
          | cons x rest1 =>
            have hx : x = '\n' := by simpa using hnl
            subst hx
            rw [cfg_getchar_skip_space, cfg_getchar_raw_at_crlf]
            simp only [Bool.true_and]
            have hs : isspace '\n' = true := by decide
            rw [if_pos hs]
            have h := ih (before ++ ['\r', '\n']) rest1 (wrap_int (ln + 1)) e
              (fun y hy => hrest y (by simp [hy]))
            simp only [List.append_assoc, List.cons_append, List.nil_append,
              List.length_append, List.length_cons, List.length_nil] at h
            exact h
        · rw [cfg_getchar_skip_space, cfg_getchar_raw_at_cr before rest ln e hnl]
          simp only [Bool.true_and]
          rw [if_pos hc]
          have h := ih (before ++ ['\r']) rest ln e hrest
          simp only [List.append_assoc, List.cons_append, List.nil_append,
            List.length_append, List.length_cons, List.length_nil] at h
          exact h
      · rw [cfg_getchar_skip_space, cfg_getchar_raw_at_char before rest c ln e hcr hn]
        simp only [Bool.true_and]
        rw [if_pos hc]
        have h := ih (before ++ [c]) rest (if c = '\n' then wrap_int (ln + 1) else ln) e hrest
        simp only [List.append_assoc, List.cons_append, List.nil_append,
          List.length_append, List.length_cons, List.length_nil] at h
        exact h

/-- C19: with `SKIP_WHITESPACE` set and only white space between the read
pointer and the terminating NUL, `cfg_getchar` has no defined result: the
loop takes the LF that `cfg_getchar_raw` returns for the NUL as white
space and reads on behind the NUL.  However many steps the loop is
allowed, it does not return a character. -/
theorem cfg_getchar_reads_past_end (flags : Nat) (before rest : List Char) (ln : Int)
    (e : Bool) (hf : (flags &&& SKIP_WHITESPACE) ≠ 0)
    (hw : ∀ c ∈ rest, isspace c = true) :
    cfg_getchar ⟨before ++ rest, before.length, ln, e⟩ flags = none ∧
    (∀ fuel, cfg_getchar_skip_space true fuel ⟨before ++ rest, before.length, ln, e⟩ = none) ∧
    cfg_getchar_raw ⟨before ++ rest, (before ++ rest).length + 1, ln, true⟩ = none := by
  refine ⟨?_, fun fuel => cfg_getchar_skip_space_blank fuel before rest ln e hw,
    cfg_getchar_raw_past _ _ _⟩
  unfold cfg_getchar
  simp only [hf, ne_eq, not_false_eq_true, decide_True]
  rw [cfg_getchar_skip_space_blank _ before rest ln e hw]

/-- Witness for C19: the buffer of two blanks, read from its start with
the flag `SKIP_WHITESPACE` alone and with both flags. -/
theorem cfg_getchar_reads_past_end_witness :
    cfg_getchar (Reader.start "  ".toList) SKIP_WHITESPACE = none ∧
    cfg_getchar (Reader.start "  ".toList) (SKIP_WHITESPACE ||| SKIP_COMMENTS) = none ∧
    cfg_getchar (Reader.start "  ".toList) SKIP_COMMENTS =
      some (' ', ⟨"  ".toList, 1, 0, false⟩) :=
  ⟨(cfg_getchar_reads_past_end SKIP_WHITESPACE [] "  ".toList 0 false (by decide)
      (by decide)).1,
   by decide, by decide⟩

/-! ## The value of a variable line -/

theorem parse_variable_eq_success (cfg : Reader) (section_name : Option (List Char))
    (name value : List Char) (hname : '=' ∉ name) (hnul : NUL ∉ value)
    (hex : ∃ c ∈ value, isspace c = false) :
    parse_variable cfg section_name (name ++ '=' :: value) = GIT_SUCCESS := by
  have hdrop : (name ++ '=' :: value).drop (name.length + 1) = value := by
    rw [show name ++ '=' :: value = (name ++ ['=']) ++ value by simp]
    exact List.drop_left' (by simp)
  have hhead := dropWhile_isspace_head value hex hnul
  simp only [parse_variable, strchr_zero_append_cons name value '=' hname, hdrop]
  rw [if_neg hhead]

/-- C16: `parse_variable` returns the status `GIT_SUCCESS`, and nothing
else, for every line `name = v` whose value holds a character that is not
white space: two such lines with the same name and different values give
the same result, so no Boolean value comes out of the call. -/
theorem parse_variable_ignores_value (cfg : Reader) (section_name : Option (List Char))
    (name v w : List Char) (hname : '=' ∉ name)
    (hv : ∃ c ∈ v, isspace c = false) (hvn : NUL ∉ v)
    (hw : ∃ c ∈ w, isspace c = false) (hwn : NUL ∉ w) :
    parse_variable cfg section_name (name ++ '=' :: v) = GIT_SUCCESS ∧
    parse_variable cfg section_name (name ++ '=' :: w) =
      parse_variable cfg section_name (name ++ '=' :: v) := by
  rw [parse_variable_eq_success cfg section_name name v hname hvn hv,
    parse_variable_eq_success cfg section_name name w hname hwn hw]
  exact ⟨rfl, rfl⟩

/-- Witness for C16: `bare = true` and `bare = false` under the section
`core`, and the spellings `yes`, `on`, `1`, `no`, `off`, `0`, `TRUE`. -/
theorem parse_variable_ignores_value_witness :
    parse_variable (Reader.start []) (some "core".toList) "bare = true".toList = GIT_SUCCESS ∧
    parse_variable (Reader.start []) (some "core".toList) "bare = false".toList =
      parse_variable (Reader.start []) (some "core".toList) "bare = true".toList ∧
    ["bare = yes", "bare = on", "bare = 1", "bare = no", "bare = off", "bare = 0",
      "bare = TRUE"].map
        (fun s => parse_variable (Reader.start []) (some "core".toList) s.toList) =
      [GIT_SUCCESS, GIT_SUCCESS, GIT_SUCCESS, GIT_SUCCESS, GIT_SUCCESS, GIT_SUCCESS,
        GIT_SUCCESS] :=
  ⟨(parse_variable_ignores_value (Reader.start []) (some "core".toList) "bare ".toList
      " true".toList " false".toList (by decide) (by decide) (by decide) (by decide)
      (by decide)).1,
   (parse_variable_ignores_value (Reader.start []) (some "core".toList) "bare ".toList
      " true".toList " false".toList (by decide) (by decide) (by decide) (by decide)
      (by decide)).2,
   by decide⟩

/-! ## `skip_bom` called twice -/

theorem config_parse_events_agree (env : Env) :
    ∀ (fuel : Nat) (error : Int) (cfg : Reader),
      (config_parse_events env fuel error cfg).map (fun t => t.2) =
        config_parse_loop env fuel error cfg := by
  intro fuel
  induction fuel with
  | zero => intro error cfg; rfl
  | succ fuel ih =>
    intro error cfg
    rw [config_parse_events, config_parse_loop]
    by_cases hc : error = GIT_SUCCESS ∧ cfg.eof = false
    · rw [if_pos hc, if_pos hc]
      cases hr : cfg_readline env.ptrSize cfg with
      | none => rfl
      | some lr =>
        obtain ⟨line0, cfg1⟩ := lr
        simp only []
        cases hs : strip_comments line0 with
        | nil =>
          simp only [Option.map_map]
          exact ih error cfg1
        | cons c rest =>
          simp only []
          by_cases hb : c = '['
          · rw [if_pos hb, if_pos hb]
            cases hh : parse_section_header env cfg1 (c :: rest) with
            | none => rfl
            | some rc =>
              obtain ⟨r, cfg2⟩ := rc
              simp only [Option.map_map]
              exact ih (r.status env) cfg2
          · rw [if_neg hb, if_neg hb]
            simp only [Option.map_map]
            exact ih (parse_variable cfg1 none (c :: rest)) cfg1
    · rw [if_neg hc, if_neg hc]
      rfl

theorem config_parse_trace_agree (env : Env) (cfg_file : Reader) :
    (config_parse_trace env cfg_file).map (fun t => t.2) = config_parse env cfg_file := by
  unfold config_parse_trace config_parse
  cases skip_bom env.ptrSize cfg_file with
  | none => rfl
  | some r => exact config_parse_events_agree env _ _ _

theorem config_parse_events_cons (env : Env) (ev0 : LineEvent) (t1 : List LineEvent)
    (e : Int) (cfg' : Reader)
    (h0 : (ev0.line.head? ≠ some '[' → ev0.after_parse = ev0.after_readline) ∧
      (ev0.line.head? = some '[' →
        ∃ r, parse_section_header env ev0.after_readline ev0.line = some (r, ev0.after_parse) ∧
          r.status env = ev0.status))
    (h : (t1 = [] → e = ev0.status ∧ cfg' = ev0.after_parse) ∧
      (∀ ev, t1.getLast? = some ev → ev.status = e ∧ ev.after_parse = cfg') ∧
      (∀ ev ∈ t1.dropLast, ev.status = GIT_SUCCESS) ∧
      (∀ ev ∈ t1, ev.line.head? ≠ some '[' → ev.after_parse = ev.after_readline) ∧
      (∀ ev ∈ t1, ev.line.head? = some '[' →
        ∃ r, parse_section_header env ev.after_readline ev.line = some (r, ev.after_parse) ∧
          r.status env = ev.status) ∧
      ¬ (e = GIT_SUCCESS ∧ cfg'.eof = false) ∧
      (ev0.status ≠ GIT_SUCCESS → t1 = [])) :
    (∀ ev, (ev0 :: t1).getLast? = some ev → ev.status = e ∧ ev.after_parse = cfg') ∧
    (∀ ev ∈ (ev0 :: t1).dropLast, ev.status = GIT_SUCCESS) ∧
    (∀ ev ∈ ev0 :: t1, ev.line.head? ≠ some '[' → ev.after_parse = ev.after_readline) ∧
    (∀ ev ∈ ev0 :: t1, ev.line.head? = some '[' →
      ∃ r, parse_section_header env ev.after_readline ev.line = some (r, ev.after_parse) ∧
        r.status env = ev.status) ∧
    ¬ (e = GIT_SUCCESS ∧ cfg'.eof = false) := by
  obtain ⟨h1, h2, h3, h4, h4b, h5, h6⟩ := h
  refine ⟨?_, ?_, ?_, ?_, h5⟩
  · intro ev hev
    cases t1 with
    | nil =>
      simp only [List.getLast?_singleton, Option.some.injEq] at hev
      obtain ⟨he, hc⟩ := h1 rfl
      rw [← hev]
      exact ⟨he.symm, hc.symm⟩
    | cons x xs =>
      rw [List.getLast?_cons_cons] at hev
      exact h2 ev hev
  · intro ev hev
    cases t1 with
    | nil => simp at hev
    | cons x xs =>
      rw [List.dropLast_cons₂, List.mem_cons] at hev
      rcases hev with hev | hev
      · rw [hev]
        by_contra hne
        exact absurd (h6 hne) (by simp)
      · exact h3 ev hev
  · intro ev hev
    rw [List.mem_cons] at hev
    rcases hev with hev | hev
    · rw [hev]; exact h0.1
    · exact h4 ev hev
  · intro ev hev
    rw [List.mem_cons] at hev
    rcases hev with hev | hev
    · rw [hev]; exact h0.2
    · exact h4b ev hev

theorem config_parse_events_spec (env : Env) :
    ∀ (fuel : Nat) (error : Int) (cfg : Reader) (events : List LineEvent) (e : Int)
      (cfg' : Reader),
      config_parse_events env fuel error cfg = some (events, e, cfg') →
      (events = [] → e = error ∧ cfg' = cfg) ∧
      (∀ ev, events.getLast? = some ev → ev.status = e ∧ ev.after_parse = cfg') ∧
      (∀ ev ∈ events.dropLast, ev.status = GIT_SUCCESS) ∧
      (∀ ev ∈ events, ev.line.head? ≠ some '[' → ev.after_parse = ev.after_readline) ∧
      (∀ ev ∈ events, ev.line.head? = some '[' →
        ∃ r, parse_section_header env ev.after_readline ev.line = some (r, ev.after_parse) ∧
          r.status env = ev.status) ∧
      ¬ (e = GIT_SUCCESS ∧ cfg'.eof = false) ∧
      (error ≠ GIT_SUCCESS → events = []) := by
  intro fuel
  induction fuel with
  | zero =>
    intro error cfg events e cfg' h
    simp [config_parse_events] at h
  | succ fuel ih =>
    intro error cfg events e cfg' h
    rw [config_parse_events] at h
    by_cases hc : error = GIT_SUCCESS ∧ cfg.eof = false
    · rw [if_pos hc] at h
      have step : ∀ (ev0 : LineEvent) (error1 : Int) (cfg1 : Reader),
          ev0.status = error1 → ev0.after_parse = cfg1 →
          ((ev0.line.head? ≠ some '[' → ev0.after_parse = ev0.after_readline) ∧
            (ev0.line.head? = some '[' →
              ∃ r, parse_section_header env ev0.after_readline ev0.line =
                  some (r, ev0.after_parse) ∧ r.status env = ev0.status)) →
          (config_parse_events env fuel error1 cfg1).map
            (fun t => (ev0 :: t.1, t.2)) = some (events, e, cfg') →
          (events = [] → e = error ∧ cfg' = cfg) ∧
          (∀ ev, events.getLast? = some ev → ev.status = e ∧ ev.after_parse = cfg') ∧
          (∀ ev ∈ events.dropLast, ev.status = GIT_SUCCESS) ∧
          (∀ ev ∈ events, ev.line.head? ≠ some '[' → ev.after_parse = ev.after_readline) ∧
          (∀ ev ∈ events, ev.line.head? = some '[' →
            ∃ r, parse_section_header env ev.after_readline ev.line =
                some (r, ev.after_parse) ∧ r.status env = ev.status) ∧
          ¬ (e = GIT_SUCCESS ∧ cfg'.eof = false) ∧
          (error ≠ GIT_SUCCESS → events = []) := by
        intro ev0 error1 cfg1 hst hap h0 hm
        cases hrec : config_parse_events env fuel error1 cfg1 with
        | none => rw [hrec] at hm; simp at hm
        | some t =>
          obtain ⟨t1, e1, c1⟩ := t
          rw [hrec] at hm
          simp only [Option.map_some', Option.some.injEq, Prod.mk.injEq] at hm
          obtain ⟨hev, he, hcf⟩ := hm
          subst hev he hcf
          obtain ⟨i1, i2, i3, i4, i4b, i5, i6⟩ := ih error1 cfg1 t1 e1 c1 hrec
          have hcons := config_parse_events_cons env ev0 t1 e1 c1 h0
            ⟨fun hnil => by rw [hst, hap]; exact i1 hnil, i2, i3, i4, i4b, i5,
              fun hne => i6 (by rw [← hst]; exact hne)⟩
          exact ⟨fun hnil => absurd hnil (by simp), hcons.1, hcons.2.1, hcons.2.2.1,
            hcons.2.2.2.1, hcons.2.2.2.2, fun hne => absurd hc.1 hne⟩
      cases hr : cfg_readline env.ptrSize cfg with
      | none => rw [hr] at h; simp at h
      | some lr =>
        obtain ⟨line0, cfg1⟩ := lr
        rw [hr] at h
        simp only [] at h
        cases hs : strip_comments line0 with
        | nil =>
          rw [hs] at h
          simp only [] at h
          exact step ⟨[], cfg1, error, cfg1⟩ error cfg1 rfl rfl
            ⟨fun _ => rfl, fun hh => by simp at hh⟩ h
        | cons c rest =>
          rw [hs] at h
          simp only [] at h
          by_cases hb : c = '['
          · rw [if_pos hb] at h
            cases hh : parse_section_header env cfg1 (c :: rest) with
            | none => rw [hh] at h; simp at h
            | some rc =>
              obtain ⟨r, cfg2⟩ := rc
              rw [hh] at h
              simp only [] at h
              exact step ⟨c :: rest, cfg1, r.status env, cfg2⟩ (r.status env) cfg2 rfl rfl
                ⟨fun hne => absurd (by simp [hb]) hne, fun _ => ⟨r, hh, rfl⟩⟩ h
          · rw [if_neg hb] at h
            exact step ⟨c :: rest, cfg1, parse_variable cfg1 none (c :: rest), cfg1⟩
              (parse_variable cfg1 none (c :: rest)) cfg1 rfl rfl
              ⟨fun _ => rfl, fun hh => absurd (by simpa using hh) hb⟩ h
    · rw [if_neg hc] at h
      simp only [Option.some.injEq, Prod.mk.injEq] at h
      obtain ⟨hev, he, hcf⟩ := h
      subst hev he hcf
      refine ⟨fun _ => ⟨rfl, rfl⟩, fun ev hev => by simp at hev, fun ev hev => by simp at hev,
        fun ev hev => by simp at hev, fun ev hev => by simp at hev, hc, fun _ => rfl⟩

/-- C13: `config_parse` stops at the first pass of its loop that ends with
a status other than `GIT_SUCCESS`.  For the list of passes of a call, one
for each line read by `cfg_readline`: every pass but the last ends with
`GIT_SUCCESS`; a status other than `GIT_SUCCESS` is the status of the
last pass, and the reader after the call is the reader at the end of that
pass; the status `GIT_SUCCESS` is returned only when every pass ended
with it and the end-of-input flag is set.  After a line that does not
begin with `[` the reader is the one that `cfg_readline` left; after a
header line it is the one that `parse_section_header` left, which has
read on in the buffer. -/
theorem config_parse_fail_fast (env : Env) (cfg_file : Reader) (events : List LineEvent)
    (e : Int) (cfg' : Reader)
    (h : config_parse_trace env cfg_file = some (events, e, cfg')) :
    config_parse env cfg_file = some (e, cfg') ∧
    (∀ ev ∈ events.dropLast, ev.status = GIT_SUCCESS) ∧
    (e ≠ GIT_SUCCESS →
      ∃ ev, events.getLast? = some ev ∧ ev.status = e ∧ ev.after_parse = cfg') ∧
    (e = GIT_SUCCESS → (∀ ev ∈ events, ev.status = GIT_SUCCESS) ∧ cfg'.eof = true) ∧
    (∀ ev ∈ events, ev.line.head? ≠ some '[' → ev.after_parse = ev.after_readline) ∧
    (∀ ev ∈ events, ev.line.head? = some '[' →
      ∃ r, parse_section_header env ev.after_readline ev.line = some (r, ev.after_parse) ∧
        r.status env = ev.status) := by
  have hagree := config_parse_trace_agree env cfg_file
  rw [h] at hagree
  refine ⟨hagree.symm, ?_⟩
  unfold config_parse_trace at h
  cases hb : skip_bom env.ptrSize cfg_file with
  | none => rw [hb] at h; simp at h
  | some r =>
    rw [hb] at h
    simp only [] at h
    obtain ⟨p1, p2, p3, p4, p4b, p5, _⟩ :=
      config_parse_events_spec env _ GIT_SUCCESS r.2 events e cfg' h
    refine ⟨p3, ?_, ?_, p4, p4b⟩
    · intro hne
      cases hl : events.getLast? with
      | none =>
        rw [List.getLast?_eq_none_iff] at hl
        exact absurd (p1 hl).1 hne
      | some ev => exact ⟨ev, rfl, p2 ev hl⟩
    · intro he
      have heof : cfg'.eof = true := by
        cases hx : cfg'.eof with
        | true => rfl
        | false => exact absurd ⟨he, hx⟩ p5
      refine ⟨?_, heof⟩
      intro ev hev
      rcases List.eq_nil_or_concat events with hnil | ⟨pre, x, hcat⟩
      · rw [hnil] at hev; simp at hev
      · rw [List.concat_eq_append] at hcat
        rw [hcat] at hev p2 p3
        rw [List.dropLast_concat] at p3
        rw [List.mem_append, List.mem_singleton] at hev
        rcases hev with hev | hev
        · exact p3 ev hev
        · rw [hev, (p2 x (by simp)).1]
          exact he

/-- Witness for C13, with pointers of 8 bytes.  On `a =` LF `b = 1` LF the
first line ends with `GIT_EOBJCORRUPTED`, which is returned with the
reader at offset 4, behind that line.  On `[a]` LF `b]` LF, with
`name_start` at the text `a]` and the pointer `name` converted to 1, the
header line ends with the status 1, which is returned with the reader at
offset 6: `cfg_readline` left it at offset 4 and `parse_section_header`
has read `b]` from the next line. -/
theorem config_parse_fail_fast_witness :
    config_parse (⟨8, ['a', ']'], 1, fun _ _ => none⟩ : Env)
        (Reader.start "a =\nb = 1\n".toList) =
      some (GIT_EOBJCORRUPTED, ⟨"a =\nb = 1\n".toList, 4, 1, false⟩) ∧
    config_parse_trace (⟨8, ['a', ']'], 1, fun _ _ => none⟩ : Env)
        (Reader.start "[a]\nb]\n".toList) =
      some ([⟨"[a]".toList, ⟨"[a]\nb]\n".toList, 4, 1, false⟩, 1,
              ⟨"[a]\nb]\n".toList, 6, 1, false⟩⟩], 1, ⟨"[a]\nb]\n".toList, 6, 1, false⟩) ∧
    config_parse (⟨8, ['a', ']'], 1, fun _ _ => none⟩ : Env)
        (Reader.start "[a]\nb]\n".toList) =
      some (1, ⟨"[a]\nb]\n".toList, 6, 1, false⟩) :=
  ⟨(config_parse_fail_fast ⟨8, ['a', ']'], 1, fun _ _ => none⟩
      (Reader.start "a =\nb = 1\n".toList)
      [⟨"a =".toList, ⟨"a =\nb = 1\n".toList, 4, 1, false⟩, GIT_EOBJCORRUPTED,
        ⟨"a =\nb = 1\n".toList, 4, 1, false⟩⟩]
      GIT_EOBJCORRUPTED ⟨"a =\nb = 1\n".toList, 4, 1, false⟩ (by decide)).1,
   by decide,
   (config_parse_fail_fast ⟨8, ['a', ']'], 1, fun _ _ => none⟩
      (Reader.start "[a]\nb]\n".toList)
      [⟨"[a]".toList, ⟨"[a]\nb]\n".toList, 4, 1, false⟩, 1,
        ⟨"[a]\nb]\n".toList, 6, 1, false⟩⟩]
      1 ⟨"[a]\nb]\n".toList, 6, 1, false⟩ (by decide)).1⟩

/-! ## Progress of the read pointer -/

theorem strchr_from_found (c : Char) (hc : c ≠ NUL) :
    ∀ (xs : List Char) (i p : Nat), strchr_from xs c i = some p →
      i ≤ p ∧ p < i + xs.length ∧ xs[p - i]? = some c := by
  intro xs
  induction xs with
  | nil =>
    intro i p h
    simp [strchr_from, hc] at h
  | cons x xs ih =>
    intro i p h
    rw [strchr_from] at h
    by_cases hx : x = c
    · rw [if_pos hx] at h
      simp only [Option.some.injEq] at h
      subst h
      simp [hx]
    · rw [if_neg hx] at h
      obtain ⟨h1, h2, h3⟩ := ih (i + 1) p h
      refine ⟨by omega, by simp only [List.length_cons]; omega, ?_⟩
      have hp : p - i = (p - (i + 1)) + 1 := by omega
      rw [hp, List.getElem?_cons_succ]
      exact h3

theorem strchr_found (s : List Char) (start p : Nat) (c : Char) (hc : c ≠ NUL)
    (h : strchr s start c = some p) :
    start ≤ p ∧ p < s.length ∧ s.getD p NUL = c := by
  unfold strchr at h
  by_cases hs : s.length < start
  · rw [if_pos hs] at h; simp at h
  · rw [if_neg hs] at h
    obtain ⟨h1, h2, h3⟩ := strchr_from_found c hc (s.drop start) start p h
    rw [List.length_drop] at h2
    rw [List.getElem?_drop] at h3
    have hidx : start + (p - start) = p := by omega
    rw [hidx] at h3
    refine ⟨h1, by omega, ?_⟩
    rw [List.getD_eq_getElem?_getD, h3]
    rfl

theorem readline_find_end_found (n : Nat) (buf : List Char) (lo : Nat) :
    ∀ (fuel : Nat) (line_end found : Option Nat),
      (∀ p, line_end = some p → lo ≤ p ∧ p < buf.length ∧ buf.getD p NUL = '\n') →
      readline_find_end n buf fuel line_end = some found →
      ∃ q, found = some q ∧ lo ≤ q ∧ q < buf.length ∧ buf.getD q NUL = '\n' := by
  intro fuel
  induction fuel with
  | zero =>
    intro line_end found _ h
    simp [readline_find_end] at h
  | succ fuel ih =>
    intro line_end found hinv h
    cases line_end with
    | none => simp [readline_find_end, is_linebreak] at h
    | some p =>
      rw [readline_find_end] at h
      cases hl : is_linebreak n buf (some p) with
      | none => rw [hl] at h; simp at h
      | some b =>
        rw [hl] at h
        cases b with
        | false =>
          simp only [Option.some.injEq] at h
          exact ⟨p, h.symm, hinv p rfl⟩
        | true =>
          simp only [] at h
          refine ih (strchr buf (p + 1) '\n') found ?_ h
          intro q hq
          obtain ⟨h1, h2, h3⟩ := strchr_found buf (p + 1) q '\n' (by decide) hq
          exact ⟨by have := (hinv p rfl).1; omega, h2, h3⟩

theorem cfg_readline_advance (n : Nat) (cfg cfg' : Reader) (line : List Char)
    (h : cfg_readline n cfg = some (line, cfg')) :
    cfg'.buffer = cfg.buffer ∧ cfg.read_ptr < cfg'.read_ptr ∧
      cfg'.read_ptr ≤ cfg.buffer.length := by
  unfold cfg_readline at h
  simp only [] at h
  cases hf : readline_find_end n cfg.buffer (cfg.buffer.length + 1)
      (strchr cfg.buffer cfg.read_ptr '\n') with
  | none => rw [hf] at h; simp at h
  | some found =>
    rw [hf] at h
    obtain ⟨q, hq, h1, h2, h3⟩ := readline_find_end_found n cfg.buffer cfg.read_ptr _ _ found
      (fun p hp => strchr_found cfg.buffer cfg.read_ptr p '\n' (by decide) hp) hf
    subst hq
    simp only [] at h
    cases hcp : readline_copy n cfg.buffer q
        (q - readline_skip_space cfg.buffer (q - cfg.read_ptr) cfg.read_ptr)
        (readline_skip_space cfg.buffer (q - cfg.read_ptr) cfg.read_ptr) with
    | none => rw [hcp] at h; simp at h
    | some copied =>
      rw [hcp] at h
      simp only [Option.some.injEq, Prod.mk.injEq] at h
      obtain ⟨_, hc⟩ := h
      rw [← hc, if_pos h3]
      exact ⟨rfl, by simp only []; omega, by simp only []; omega⟩

/-- C14: `config_parse` does not return on a buffer without LF: the first
call of `cfg_readline` passes the null pointer that `strchr` returns to
`is_linebreak`, which reads through it.  This holds for every size of
pointer and every environment, and also for the empty buffer.  When
`cfg_readline` does return, the read pointer has moved strictly forward
and stands inside the buffer or at its terminating NUL. -/
theorem config_parse_without_newline (env : Env) (buf : List Char) (h : '\n' ∉ buf) :
    config_parse env (Reader.start buf) = none ∧
    (∀ cfg : Reader, cfg.buffer = buf → cfg_readline env.ptrSize cfg = none) ∧
    (∀ (cfg cfg' : Reader) (line : List Char),
      cfg_readline env.ptrSize cfg = some (line, cfg') →
        cfg'.buffer = cfg.buffer ∧ cfg.read_ptr < cfg'.read_ptr ∧
          cfg'.read_ptr ≤ cfg.buffer.length) := by
  have hread : ∀ cfg : Reader, cfg.buffer = buf → cfg_readline env.ptrSize cfg = none := by
    intro cfg hb
    apply cfg_readline_eq_none
    rw [hb]
    exact fun hm => h (List.mem_of_mem_drop hm)
  refine ⟨?_, hread, fun cfg cfg' line hr => cfg_readline_advance env.ptrSize cfg cfg' line hr⟩
  unfold config_parse skip_bom
  cases memcmp_eq (Reader.start buf).buffer ((Reader.start buf).read_ptr : Int) utf8_bom
      env.ptrSize with
  | none => rfl
  | some b =>
    cases b with
    | false =>
      simp only []
      rw [config_parse_loop, if_pos ⟨rfl, rfl⟩, hread _ rfl]
    | true =>
      simp only []
      rw [config_parse_loop, if_pos ⟨rfl, rfl⟩, hread _ rfl]

/-- Witness for C14: the empty buffer, with pointers of 8 bytes. -/
theorem config_parse_without_newline_witness :
    '\n' ∉ ([] : List Char) ∧
    config_parse (⟨8, [], 0, fun _ _ => none⟩ : Env) (Reader.start []) = none :=
  ⟨by decide, (config_parse_without_newline ⟨8, [], 0, fun _ _ => none⟩ [] (by decide)).1⟩

/-! ## Reads in front of the buffer and in front of the line -/

theorem config_parse_single_newline (env : Env) (h4 : 4 ≤ env.ptrSize) :
    config_parse env (Reader.start ['\n']) = none := by
  have hb : memcmp_eq ['\n'] ((0 : Nat) : Int) utf8_bom env.ptrSize = some false :=
    memcmp_bom_false env.ptrSize h4 ['\n'] (by decide) (by decide)
  have hr := cfg_readline_at_line env.ptrSize h4 [] [] [] (by simp) (by simp) 0 false
  have hd : linebreak_decided ([] ++ []) [] = false := by decide
  rw [hd] at hr
  simp only [List.append_nil, List.nil_append, List.length_nil] at hr
  unfold config_parse skip_bom
  simp only [Reader.start]
  rw [hb]
  simp only []
  rw [config_parse_loop, if_pos ⟨rfl, rfl⟩]
  simp only [Bool.false_eq_true, if_false] at hr
  rw [hr]

/-- C15: `config_parse` reads in front of the buffer and in front of the
line.  With pointers of at least 4 bytes: at an LF at offset 0,
`is_linebreak` reads `pos[-1]`, the byte in front of the buffer; at an LF
at offset 1 behind `a`, its second `memcmp` starts at `pos[-2]`, the same
byte; `strip_comments` reads `ptr[-1]` in front of an empty line and in
front of a line that begins with `;`; `parse_variable` reads
`var_end[-1]` in front of a line that begins with `=`, and its backward
scan has no defined end there; on the buffer that holds one LF the
result of `is_linebreak` rests on bytes outside the buffer and
`config_parse` has no defined result, and on the empty buffer neither. -/
theorem config_parse_reads_outside (env : Env) (h4 : 4 ≤ env.ptrSize) (rest : List Char) :
    (strchr ('\n' :: rest) 0 '\n' = some 0 ∧
      none ∈ is_linebreak_reads env.ptrSize ('\n' :: rest) 0) ∧
    (strchr ('a' :: '\n' :: rest) 0 '\n' = some 1 ∧
      is_linebreak_reads env.ptrSize ('a' :: '\n' :: rest) 1 = [some 'a', none]) ∧
    strip_comments_last_read [] = none ∧
    strip_comments_last_read (';' :: rest) = none ∧
    parse_variable_first_read ('=' :: rest) = none ∧
    parse_variable_name_end ('=' :: rest) (parse_variable_var_end ('=' :: rest)) = none ∧
    config_parse env (Reader.start ['\n']) = none ∧
    config_parse env (Reader.start []) = none := by
  refine ⟨⟨?_, ?_⟩, ⟨?_, ?_⟩, ?_, ?_, ?_, ?_, config_parse_single_newline env h4, ?_⟩
  · simp [strchr, strchr_from]
  · unfold is_linebreak_reads
    rw [List.mem_cons]
    left
    exact (byte_at_neg _ _ (by simp)).symm
  · simp [strchr, strchr_from]
  · have hm : memcmp_eq ('a' :: '\n' :: rest) (((1 : Nat) : Int) - 1) LINEBREAK_UNIX
        env.ptrSize = some false := by
      rw [memcmp_eq_false_iff]
      refine ⟨0, by omega, 'a', '\\', ?_, ?_, by decide⟩
      · simp [byte_at]
      · simp [byte_at, LINEBREAK_UNIX]
    unfold is_linebreak_reads
    rw [hm]
    simp only []
    have h0 : byte_at ('a' :: '\n' :: rest) (((1 : Nat) : Int) - 1) = some 'a' := by
      simp [byte_at]
    have h1 : byte_at ('a' :: '\n' :: rest) (((1 : Nat) : Int) - 2) = none :=
      byte_at_neg _ _ (by simp)
    rw [h0, h1]
  · rfl
  · have hs : strip_comments (';' :: rest) = [] := by
      simp [strip_comments, strip_comments_loop]
    unfold strip_comments_last_read
    rw [hs]
    rfl
  · have hv : parse_variable_var_end ('=' :: rest) = 0 := by
      simp [parse_variable_var_end, strchr, strchr_from]
    unfold parse_variable_first_read
    rw [hv]
    exact byte_at_neg _ _ (by simp)
  · have hv : parse_variable_var_end ('=' :: rest) = 0 := by
      simp [parse_variable_var_end, strchr, strchr_from]
    rw [hv]
    rfl
  · unfold config_parse skip_bom
    cases memcmp_eq (Reader.start []).buffer ((Reader.start []).read_ptr : Int) utf8_bom
        env.ptrSize with
    | none => rfl
    | some b =>
      have hr : ∀ cfg : Reader, cfg.buffer = [] → cfg_readline env.ptrSize cfg = none := by
        intro cfg hb
        apply cfg_readline_eq_none
        rw [hb]
        simp
      cases b with
      | false =>
        simp only []
        rw [config_parse_loop, if_pos ⟨rfl, rfl⟩, hr _ rfl]
      | true =>
        simp only []
        rw [config_parse_loop, if_pos ⟨rfl, rfl⟩, hr _ rfl]

/-- Witness for C15, with pointers of 4 bytes.  On the buffer LF LF `= 1`
LF the call of `config_parse` returns `GIT_SUCCESS`; its passes hand two
empty lines to `strip_comments` and the line `= 1` to `parse_variable`,
and its first call of `cfg_readline` finds the LF at offset 0. -/
theorem config_parse_reads_outside_witness :
    (4 ≤ (⟨4, [], 0, fun _ _ => none⟩ : Env).ptrSize) ∧
    config_parse_trace (⟨4, [], 0, fun _ _ => none⟩ : Env)
        (Reader.start "\n\n= 1\n".toList) =
      some ([⟨[], ⟨"\n\n= 1\n".toList, 1, 1, false⟩, 0, ⟨"\n\n= 1\n".toList, 1, 1, false⟩⟩,
             ⟨[], ⟨"\n\n= 1\n".toList, 2, 2, false⟩, 0, ⟨"\n\n= 1\n".toList, 2, 2, false⟩⟩,
             ⟨"= 1".toList, ⟨"\n\n= 1\n".toList, 6, 3, true⟩, 0,
               ⟨"\n\n= 1\n".toList, 6, 3, true⟩⟩],
            GIT_SUCCESS, ⟨"\n\n= 1\n".toList, 6, 3, true⟩) ∧
    none ∈ is_linebreak_reads 4 "\n\n= 1\n".toList 0 ∧
    strip_comments_last_read [] = none ∧
    parse_variable_first_read "= 1".toList = none ∧
    config_parse (⟨4, [], 0, fun _ _ => none⟩ : Env) (Reader.start ['\n']) = none :=
  ⟨by decide, by decide,
   (config_parse_reads_outside ⟨4, [], 0, fun _ _ => none⟩ (by decide) "\n= 1\n".toList).1.2,
   (config_parse_reads_outside ⟨4, [], 0, fun _ _ => none⟩ (by decide) " 1".toList).2.2.1,
   (config_parse_reads_outside ⟨4, [], 0, fun _ _ => none⟩ (by decide) " 1".toList).2.2.2.2.1,
   (config_parse_reads_outside ⟨4, [], 0, fun _ _ => none⟩ (by decide) []).2.2.2.2.2.2.1⟩

/-! ## The line returned by `cfg_readline` is trimmed and is not spliced -/

theorem dropWhile_isspace_head_not_space :
    ∀ (l : List Char) (c : Char), (l.dropWhile isspace).head? = some c → isspace c = false := by
  intro l
  induction l with
  | nil => intro c h; simp at h
  | cons x xs ih =>
    intro c h
    by_cases hx : isspace x = true
    · rw [List.dropWhile_cons_of_pos hx] at h
      exact ih c h
    · rw [List.dropWhile_cons_of_neg hx] at h
      simp only [List.head?_cons, Option.some.injEq] at h
      rw [← h]
      simpa using hx

theorem readline_trim_end_initial (x : List Char) : readline_trim_end x <+: x := by
  refine ⟨(x.reverse.takeWhile isspace).reverse, ?_⟩
  unfold readline_trim_end
  rw [← List.reverse_append, List.takeWhile_append_dropWhile, List.reverse_reverse]

theorem readline_trim_end_head (x : List Char) (c : Char)
    (h : (readline_trim_end x).head? = some c) : x.head? = some c := by
  obtain ⟨t, ht⟩ := readline_trim_end_initial x
  cases hr : readline_trim_end x with
  | nil => rw [hr] at h; simp at h
  | cons y ys =>
    rw [hr] at h ht
    rw [← ht]
    simpa using h

theorem readline_trim_end_last (x : List Char) (c : Char)
    (h : (readline_trim_end x).getLast? = some c) : isspace c = false := by
  unfold readline_trim_end at h
  rw [List.getLast?_reverse] at h
  exact dropWhile_isspace_head_not_space _ c h

theorem readline_trim_end_subset (x : List Char) (c : Char)
    (h : c ∈ readline_trim_end x) : c ∈ x := by
  obtain ⟨t, ht⟩ := readline_trim_end_initial x
  rw [← ht]
  exact List.mem_append_left _ h

theorem linebreak_decided_no_backslash (b : List Char) (hb : ∀ c ∈ b, c ≠ '\\') :
    linebreak_decided (['\\', '\n'] ++ b) [] = true := by
  rcases List.eq_nil_or_concat b with hnil | ⟨p1, x, hcat⟩
  · rw [hnil]; decide
  · rw [List.concat_eq_append] at hcat
    have hx : x ≠ '\\' := hb x (by rw [hcat]; simp)
    have hlast : (['\\', '\n'] ++ b).getLast? = some x := by
      rw [hcat, ← List.append_assoc, List.getLast?_append]
      simp
    have hd : differs (some x) '\\' = true := by simp [differs, hx]
    have hdrop : (['\\', '\n'] ++ b).dropLast = ['\\', '\n'] ++ p1 := by
      rw [hcat, ← List.append_assoc, List.dropLast_concat]
    have hd2 : differs (['\\', '\n'] ++ p1).getLast? '\\' = true := by
      rcases List.eq_nil_or_concat p1 with hnil1 | ⟨p2, y, hcat1⟩
      · rw [hnil1]; decide
      · rw [List.concat_eq_append] at hcat1
        have hy : y ≠ '\\' := hb y (by rw [hcat, hcat1]; simp)
        have hl : (['\\', '\n'] ++ p1).getLast? = some y := by
          rw [hcat1, ← List.append_assoc, List.getLast?_append]
          simp
        rw [hl]
        simp [differs, hy]
    unfold linebreak_decided
    rw [hlast, hdrop, hd, hd2]
    rfl

theorem cfg_readline_trimmed (n : Nat) (h4 : 4 ≤ n) (cfg cfg' : Reader) (line : List Char)
    (hnul : NUL ∉ cfg.buffer) (hptr : cfg.read_ptr ≤ cfg.buffer.length)
    (h : cfg_readline n cfg = some (line, cfg')) :
    (∀ c, line.head? = some c → isspace c = false) ∧
    (∀ c, line.getLast? = some c → isspace c = false) ∧ '\n' ∉ line := by
  have hmem : '\n' ∈ cfg.buffer.drop cfg.read_ptr := by
    by_contra hno
    rw [cfg_readline_eq_none n cfg hno] at h
    simp at h
  obtain ⟨l, after, hsplit, hl⟩ := exists_first_split '\n' _ hmem
  have hbuf : cfg.buffer = cfg.buffer.take cfg.read_ptr ++ l ++ '\n' :: after := by
    rw [List.append_assoc, ← hsplit, List.take_append_drop]
  have hlen : (cfg.buffer.take cfg.read_ptr).length = cfg.read_ptr := by
    rw [List.length_take]; omega
  have hafter : after.head? ≠ some NUL := by
    intro ha
    apply hnul
    rw [hbuf]
    cases after with
    | nil => simp at ha
    | cons a as =>
      simp only [List.head?_cons, Option.some.injEq] at ha
      rw [ha]
      simp
  have hcfg : cfg = ⟨cfg.buffer.take cfg.read_ptr ++ l ++ '\n' :: after,
      (cfg.buffer.take cfg.read_ptr).length, cfg.line_number, cfg.eof⟩ := by
    rw [← hbuf, hlen]
  have hr := cfg_readline_at_line n h4 (cfg.buffer.take cfg.read_ptr) l after hl hafter
    cfg.line_number cfg.eof
  rw [← hcfg, h] at hr
  by_cases hd : linebreak_decided (cfg.buffer.take cfg.read_ptr ++ l) after = true
  · rw [if_pos hd] at hr
    simp only [Option.some.injEq, Prod.mk.injEq] at hr
    obtain ⟨hline, _⟩ := hr
    rw [hline]
    refine ⟨?_, ?_, ?_⟩
    · intro c hc
      exact dropWhile_isspace_head_not_space l c (readline_trim_end_head _ c hc)
    · intro c hc
      exact readline_trim_end_last _ c hc
    · intro hm
      exact hl (List.dropWhile_subset isspace (readline_trim_end_subset _ _ hm))
  · rw [if_neg hd] at hr
    simp at hr

/-- C11: `cfg_readline` trims the line that it returns and splices
nothing.  With pointers of at least 4 bytes, a returned line neither
begins nor ends with white space and holds no LF; on a buffer that
begins with backslash LF, followed by a text `b` and LF, the first call
returns the backslash as a line and the second call returns `b` without
its leading and trailing white space.  With pointers of 2 bytes, for
which the comparison with `LINEBREAK_UNIX` has the length of the marker,
the buffer backslash LF, two blanks, `foo`, LF is spliced and the line
returned begins with the two blanks: the leading white space is skipped
in front of the copy loop that removes the marker. -/
theorem cfg_readline_trims_without_splice (n : Nat) (h4 : 4 ≤ n) (b : List Char)
    (hb : ∀ c ∈ b, c ≠ '\\' ∧ c ≠ '\n' ∧ c ≠ NUL) :
    cfg_readline n (Reader.start ('\\' :: '\n' :: (b ++ ['\n']))) =
      some (['\\'], ⟨'\\' :: '\n' :: (b ++ ['\n']), 2, 1, false⟩) ∧
    cfg_readline n ⟨'\\' :: '\n' :: (b ++ ['\n']), 2, 1, false⟩ =
      some (readline_trim_end (b.dropWhile isspace),
        ⟨'\\' :: '\n' :: (b ++ ['\n']), b.length + 3, 2, true⟩) ∧
    cfg_readline 2 (Reader.start "\\\n  foo\n".toList) =
      some ("  foo".toList, ⟨"\\\n  foo\n".toList, 8, 1, true⟩) ∧
    (∀ (cfg cfg' : Reader) (line : List Char), NUL ∉ cfg.buffer →
      cfg.read_ptr ≤ cfg.buffer.length → cfg_readline n cfg = some (line, cfg') →
      (∀ c, line.head? = some c → isspace c = false) ∧
      (∀ c, line.getLast? = some c → isspace c = false) ∧ '\n' ∉ line) := by
  refine ⟨?_, ?_, by decide, fun cfg cfg' line hnul hptr h =>
    cfg_readline_trimmed n h4 cfg cfg' line hnul hptr h⟩
  · have hhead : (b ++ ['\n']).head? ≠ some NUL := by
      cases b with
      | nil => decide
      | cons x xs =>
        have := (hb x (by simp)).2.2
        simpa using this
    have hr := cfg_readline_at_line n h4 [] ['\\'] (b ++ ['\n']) (by decide) hhead 0 false
    rw [linebreak_decided_of_after _ _ (by simp), if_pos rfl] at hr
    have ht : readline_trim_end (['\\'].dropWhile isspace) = ['\\'] := by decide
    rw [ht] at hr
    have he : ((b ++ ['\n']).isEmpty || false) = false := by
      cases b <;> rfl
    rw [he] at hr
    exact hr
  · have hl : '\n' ∉ b := fun hm => (hb _ hm).2.1 rfl
    have hr := cfg_readline_at_line n h4 ['\\', '\n'] b [] hl (by simp) 1 false
    rw [linebreak_decided_no_backslash b (fun c hc => (hb c hc).1), if_pos rfl] at hr
    have hlen : (['\\', '\n'] : List Char).length + b.length + 1 = b.length + 3 := by
      simp only [List.length_cons, List.length_nil]; omega
    rw [hlen] at hr
    exact hr

/-- Witness for C11: the buffer backslash LF, two blanks, `foo`, LF, with
pointers of 8 bytes: the calls return the backslash and then `foo`. -/
theorem cfg_readline_trims_without_splice_witness :
    (∀ c ∈ "  foo".toList, c ≠ '\\' ∧ c ≠ '\n' ∧ c ≠ NUL) ∧
    cfg_readline 8 (Reader.start "\\\n  foo\n".toList) =
      some (['\\'], ⟨"\\\n  foo\n".toList, 2, 1, false⟩) ∧
    cfg_readline 8 ⟨"\\\n  foo\n".toList, 2, 1, false⟩ =
      some ("foo".toList, ⟨"\\\n  foo\n".toList, 8, 2, true⟩) :=
  ⟨by decide,
   (cfg_readline_trims_without_splice 8 (by decide) "  foo".toList (by decide)).1,
   (cfg_readline_trims_without_splice 8 (by decide) "  foo".toList (by decide)).2.1⟩

end Config
